import Mathlib

/-!
Verification of the pylon plugin runtime core
(carrier-io/pylon, `pylon/core/tools/...`).

Shallow embedding notes:
* Python dicts are modelled as association lists (`List (String × α)`)
  preserving insertion order; dict keys are unique, which appears as
  `Nodup` hypotheses where the proofs need it.
* Python sets are modelled as lists where only membership matters.
* Raising an exception is modelled with `Except`.
* The unbounded recursion of `_walk_module_depencies` is modelled with
  fuel; a distinguished `fuelOut` error marks fuel exhaustion, and we
  prove that with the fuel supplied by `resolve_depencies` it never
  occurs.
-/

set_option maxHeartbeats 1000000
set_option maxRecDepth 8000

namespace Pylon

/-- Python dict assignment `d[k] = v`: overwrite in place when the key is
present (keeping its position), append otherwise. -/
def dictInsert (l : List (String × α)) (k : String) (v : α) : List (String × α) :=
  if (l.lookup k).isSome then
    l.map (fun it => if it.1 = k then (k, v) else it)
  else
    l ++ [(k, v)]

/-- Update the value stored at key `k` in place. -/
def dictUpdate (l : List (String × α)) (k : String) (f : α → α) : List (String × α) :=
  l.map (fun it => if it.1 = k then (it.1, f it.2) else it)

theorem lookup_dictUpdate (l : List (String × α)) (k : String) (f : α → α) :
    (dictUpdate l k f).lookup k = (l.lookup k).map f := by
  induction l with
  | nil => rfl
  | cons hd tl ih =>
    obtain ⟨k1, v1⟩ := hd
    by_cases h : k1 = k
    · subst h
      simp [dictUpdate]
    · have hbeq : (k == k1) = false := by
        simp only [beq_eq_false_iff_ne, ne_eq]
        exact fun he => h he.symm
      simp only [dictUpdate, List.map_cons, if_neg h, List.lookup_cons, hbeq] at ih ⊢
      exact ih

theorem lookup_of_mem_nodup {l : List (String × α)} (hk : (l.map Prod.fst).Nodup)
    {p : String} {d : α} (h : (p, d) ∈ l) : l.lookup p = some d := by
  induction l with
  | nil => cases h
  | cons hd tl ih =>
    obtain ⟨k1, v1⟩ := hd
    simp only [List.map_cons, List.nodup_cons] at hk
    rcases List.mem_cons.1 h with he | hmem
    · cases he
      exact List.lookup_cons_self
    · have hk1 : (p == k1) = false := by
        simp only [beq_eq_false_iff_ne, ne_eq]
        rintro rfl
        exact hk.1 (List.mem_map_of_mem Prod.fst hmem)
      rw [List.lookup_cons]
      simp only [hk1]
      exact ih hk.2 hmem

theorem eq_of_mem_nodup_keys {l : List (String × α)}
    (hk : (l.map Prod.fst).Nodup) {a b : String × α}
    (ha : a ∈ l) (hb : b ∈ l) (h : a.1 = b.1) : a = b := by
  have h1 : l.lookup a.1 = some a.2 :=
    lookup_of_mem_nodup hk (show (a.1, a.2) ∈ l by simpa using ha)
  have h2 : l.lookup b.1 = some b.2 :=
    lookup_of_mem_nodup hk (show (b.1, b.2) ∈ l by simpa using hb)
  rw [h, h2] at h1
  have := Option.some.injEq .. ▸ h1
  exact Prod.ext h this.symm

namespace Dependency

/-- Module metadata fields used by the resolver
(`metadata.get("depends_on", [])` and `metadata.get("init_after", [])`). -/
structure ModuleData where
  depends_on : List String
  init_after : List String
deriving DecidableEq, Repr

/-- `module_map`: `module_name -> (metadata, loader)`; the loader plays no
role in the resolver, so only the metadata component is kept. -/
abbrev ModuleMap := List (String × ModuleData)

def keys (m : ModuleMap) : List String := m.map Prod.fst

/-- Python `name in module_map`. -/
def hasKey (m : ModuleMap) (n : String) : Bool := (m.lookup n).isSome

/-- Errors raised by `pylon/core/tools/dependency.py` (plus the fuel
artifact of the embedding). -/
inductive DepError where
  | dependencyNotPresent (missing_dependency required_by : String)
  | circularDependency (dependency_a dependency_b : String)
  | fuelOut
deriving DecidableEq, Repr

/-- The first `(dependency, module_name)` with
`dependency not in module_map and dependency not in present_modules`,
scanning modules in map order and dependencies in list order
(dependency.py lines 51-59). -/
def findMissing (m : ModuleMap) (present : List String) : Option (String × String) :=
  m.findSome? fun it =>
    (it.2.depends_on.find? fun dep => !(hasKey m dep) && !(present.contains dep)).map
      fun dep => (dep, it.1)

/-- Mutable state of the walk: `module_order` (a list) and
`visited_modules` (a set, modelled as a list where only membership
matters). -/
structure WalkState where
  module_order : List String
  visited_modules : List String
deriving DecidableEq, Repr

/-- Python `set.add`. -/
def insertVisited (n : String) (v : List String) : List String :=
  if n ∈ v then v else n :: v

/-- `depencies` collected at dependency.py lines 72-78: `depends_on`
entries present in the map, then `init_after` entries present in the
map. -/
def collectDeps (m : ModuleMap) (name : String) : List String :=
  match m.lookup name with
  | none => []
  | some data =>
      data.depends_on.filter (fun d => hasKey m d) ++
        data.init_after.filter (fun d => hasKey m d)

/-- The `for dependency in depencies` loop at dependency.py lines 81-90,
parametrized by the recursive walk (`walkFn`) so the loop is structural
in the dependency list. -/
def walkDeps (walkFn : String → WalkState → Except DepError WalkState)
    (name : String) : List String → WalkState → Except DepError WalkState
  | [], st => .ok st
  | dep :: rest, st =>
    if dep ∈ st.module_order then walkDeps walkFn name rest st
    else if dep ∈ st.visited_modules then .error (.circularDependency dep name)
    else
      match walkFn dep st with
      | .error e => .error e
      | .ok st1 => walkDeps walkFn name rest st1

/-- `_walk_module_depencies` (dependency.py lines 70-92), with fuel. -/
def walkModule (m : ModuleMap) : Nat → String → WalkState → Except DepError WalkState
  | 0, _, _ => .error .fuelOut
  | fuel + 1, name, st =>
    let st1 : WalkState := ⟨st.module_order, insertVisited name st.visited_modules⟩
    match walkDeps (fun dep st => walkModule m fuel dep st) name (collectDeps m name) st1 with
    | .error e => .error e
    | .ok st2 => .ok ⟨st2.module_order ++ [name], st2.visited_modules⟩

/-- Fuel that always suffices (strictly more than the number of keys). -/
def resolveFuel (m : ModuleMap) : Nat := m.length + 1

/-- The `for module_name in module_map` loop at dependency.py lines 63-65. -/
def resolveLoop (m : ModuleMap) (names : List String) (st : WalkState) :
    Except DepError (List String) :=
  match names with
  | [] => .ok st.module_order
  | name :: rest =>
    if name ∈ st.module_order then resolveLoop m rest st
    else
      match walkModule m (resolveFuel m) name st with
      | .error e => .error e
      | .ok st1 => resolveLoop m rest st1

/-- `resolve_depencies` (dependency.py lines 46-67). -/
def resolve_depencies (m : ModuleMap) (present : List String) :
    Except DepError (List String) :=
  match findMissing m present with
  | some (missing, requiredBy) => .error (.dependencyNotPresent missing requiredBy)
  | none => resolveLoop m (keys m) ⟨[], []⟩

/-! ### Basic facts about keys, lookup and collected dependencies -/

theorem mem_keys_of_lookup {m : ModuleMap} {n : String} {d : ModuleData}
    (h : m.lookup n = some d) : n ∈ keys m := by
  rw [List.lookup_eq_some_iff] at h
  obtain ⟨l₁, l₂, rfl, -⟩ := h
  simp [keys]

theorem mem_keys_of_hasKey {m : ModuleMap} {n : String}
    (h : hasKey m n = true) : n ∈ keys m := by
  rw [hasKey, List.lookup_isSome_iff] at h
  obtain ⟨p, hp, he⟩ := h
  rw [beq_iff_eq] at he
  subst he
  exact List.mem_map_of_mem Prod.fst hp

theorem hasKey_of_mem_keys {m : ModuleMap} {n : String}
    (h : n ∈ keys m) : hasKey m n = true := by
  rw [hasKey, List.lookup_isSome_iff]
  obtain ⟨p, hp, he⟩ := List.mem_map.1 h
  exact ⟨p, hp, by rw [beq_iff_eq, he]⟩

theorem mem_keys_of_mem_collectDeps {m : ModuleMap} {x d : String}
    (h : d ∈ collectDeps m x) : d ∈ keys m := by
  rw [collectDeps] at h
  cases he : m.lookup x with
  | none => rw [he] at h; cases h
  | some data =>
    rw [he, List.mem_append] at h
    rcases h with h | h <;>
      exact mem_keys_of_hasKey (List.of_mem_filter h)

/-- One in-map dependency edge: `q` is a `depends_on` or `init_after`
entry of `p` and is itself a key of the map. -/
def HasEdge (m : ModuleMap) (p q : String) : Prop :=
  ∃ data, m.lookup p = some data ∧
    (q ∈ data.depends_on ∨ q ∈ data.init_after) ∧ hasKey m q = true

theorem mem_collectDeps_of_hasEdge {m : ModuleMap} {p q : String}
    (h : HasEdge m p q) : q ∈ collectDeps m p := by
  obtain ⟨data, hl, hq, hk⟩ := h
  rw [collectDeps, hl, List.mem_append]
  rcases hq with hq | hq
  · exact Or.inl (List.mem_filter.2 ⟨hq, hk⟩)
  · exact Or.inr (List.mem_filter.2 ⟨hq, hk⟩)

theorem mem_insertVisited {x n : String} {v : List String} :
    x ∈ insertVisited n v ↔ x = n ∨ x ∈ v := by
  rw [insertVisited]
  by_cases h : n ∈ v
  · rw [if_pos h]
    constructor
    · exact Or.inr
    · rintro (rfl | hx)
      · exact h
      · exact hx
  · rw [if_neg h]
    exact List.mem_cons

theorem self_mem_insertVisited {n : String} {v : List String} :
    n ∈ insertVisited n v :=
  mem_insertVisited.2 (Or.inl rfl)

/-! ### Invariants of the depth-first walk -/

/-- Every collected in-map dependency of every listed module appears in
the list, strictly earlier. -/
def Closed (m : ModuleMap) (l : List String) : Prop :=
  ∀ x ∈ l, ∀ d ∈ collectDeps m x, d ∈ l ∧ l.indexOf d < l.indexOf x

/-- Walk-state invariant: the order is duplicate-free, contained in both
the visited set and the key set, and dependency-closed. -/
def StInv (m : ModuleMap) (st : WalkState) : Prop :=
  st.module_order.Nodup ∧
  (∀ x ∈ st.module_order, x ∈ st.visited_modules) ∧
  (∀ x ∈ st.module_order, x ∈ keys m) ∧
  Closed m st.module_order

/-- Relation between states before/after a successful (partial) walk:
`new` lists the freshly ordered modules. -/
def GrowBy (m : ModuleMap) (st st2 : WalkState) (new : List String) : Prop :=
  st2.module_order = st.module_order ++ new ∧
  (∀ x, x ∈ st2.visited_modules ↔ x ∈ st.visited_modules ∨ x ∈ new) ∧
  (∀ x ∈ new, x ∉ st.visited_modules) ∧
  (∀ x ∈ new, x ∈ keys m)

theorem growBy_rfl (m : ModuleMap) (st : WalkState) : GrowBy m st st [] := by
  refine ⟨by simp, fun x => by simp, by simp, by simp⟩

theorem growBy_trans {m : ModuleMap} {st st1 st2 : WalkState} {n1 n2 : List String}
    (h1 : GrowBy m st st1 n1) (h2 : GrowBy m st1 st2 n2) :
    GrowBy m st st2 (n1 ++ n2) := by
  obtain ⟨ho1, hv1, hd1, hk1⟩ := h1
  obtain ⟨ho2, hv2, hd2, hk2⟩ := h2
  refine ⟨by rw [ho2, ho1, List.append_assoc], fun x => ?_, fun x hx => ?_, fun x hx => ?_⟩
  · rw [hv2, hv1, List.mem_append]
    tauto
  · rcases List.mem_append.1 hx with hx | hx
    · exact hd1 x hx
    · intro hv
      exact hd2 x hx ((hv1 x).2 (Or.inl hv))
  · rcases List.mem_append.1 hx with hx | hx
    · exact hk1 x hx
    · exact hk2 x hx

theorem closed_append {m : ModuleMap} {l : List String} {n : String}
    (hc : Closed m l) (hn : n ∉ l) (hd : ∀ d ∈ collectDeps m n, d ∈ l) :
    Closed m (l ++ [n]) := by
  intro x hx d hdm
  rcases List.mem_append.1 hx with hxl | hxn
  · obtain ⟨h1, h2⟩ := hc x hxl d hdm
    refine ⟨List.mem_append.2 (Or.inl h1), ?_⟩
    rw [List.indexOf_append_of_mem h1, List.indexOf_append_of_mem hxl]
    exact h2
  · have hxe : x = n := by simpa using hxn
    subst hxe
    have hdl := hd d hdm
    refine ⟨List.mem_append.2 (Or.inl hdl), ?_⟩
    rw [List.indexOf_append_of_mem hdl, List.indexOf_append_of_not_mem hn]
    exact Nat.lt_of_lt_of_le (List.indexOf_lt_length.2 hdl) (Nat.le_add_right _ _)

/-- Success postcondition of the dependency loop, parametric in the
walk function (which will be `walkModule` at one fuel less). -/
theorem walkDeps_ok_spec (m : ModuleMap)
    (walkFn : String → WalkState → Except DepError WalkState)
    (hW : ∀ dep st st2, walkFn dep st = .ok st2 → dep ∈ keys m →
      dep ∉ st.visited_modules → StInv m st →
      (∃ new, GrowBy m st st2 new ∧ dep ∈ new) ∧ StInv m st2)
    (name : String) :
    ∀ deps st st2, walkDeps walkFn name deps st = .ok st2 →
      (∀ d ∈ deps, d ∈ keys m) → StInv m st →
      (∃ new, GrowBy m st st2 new) ∧ StInv m st2 ∧
        ∀ d ∈ deps, d ∈ st2.module_order := by
  intro deps
  induction deps with
  | nil =>
    intro st st2 h _ hinv
    rw [walkDeps] at h
    cases h
    exact ⟨⟨[], growBy_rfl m st⟩, hinv, by simp⟩
  | cons dep rest ih =>
    intro st st2 h hk hinv
    rw [walkDeps] at h
    by_cases h1 : dep ∈ st.module_order
    · rw [if_pos h1] at h
      obtain ⟨⟨new, hg⟩, hinv2, hrest⟩ :=
        ih st st2 h (fun d hd => hk d (List.mem_cons_of_mem _ hd)) hinv
      refine ⟨⟨new, hg⟩, hinv2, fun d hd => ?_⟩
      rcases List.mem_cons.1 hd with rfl | hd
      · rw [hg.1]
        exact List.mem_append.2 (Or.inl h1)
      · exact hrest d hd
    · rw [if_neg h1] at h
      by_cases h2 : dep ∈ st.visited_modules
      · rw [if_pos h2] at h
        cases h
      · rw [if_neg h2] at h
        cases heq : walkFn dep st with
        | error e => rw [heq] at h; cases h
        | ok st1 =>
          rw [heq] at h
          obtain ⟨⟨n1, hg1, hdep⟩, hinv1⟩ :=
            hW dep st st1 heq (hk dep (List.mem_cons_self _ _)) h2 hinv
          obtain ⟨⟨n2, hg2⟩, hinv2, hrest⟩ :=
            ih st1 st2 h (fun d hd => hk d (List.mem_cons_of_mem _ hd)) hinv1
          refine ⟨⟨n1 ++ n2, growBy_trans hg1 hg2⟩, hinv2, fun d hd => ?_⟩
          rcases List.mem_cons.1 hd with rfl | hd
          · rw [hg2.1, hg1.1]
            refine List.mem_append.2 (Or.inl (List.mem_append.2 (Or.inr hdep)))
          · exact hrest d hd

/-- Success postcondition of `_walk_module_depencies`: the module (and
only fresh, in-map modules) get appended to the order, the state
invariant is preserved. -/
theorem walkModule_ok_spec (m : ModuleMap) :
    ∀ fuel name st st2, walkModule m fuel name st = .ok st2 →
      name ∈ keys m → name ∉ st.visited_modules → StInv m st →
      (∃ new, GrowBy m st st2 new ∧ name ∈ new) ∧ StInv m st2 := by
  intro fuel
  induction fuel with
  | zero =>
    intro name st st2 h
    rw [walkModule] at h
    cases h
  | succ f ih =>
    intro name st st2 h hk hnv hinv
    rw [walkModule] at h
    obtain ⟨hnd, hov, hok, hcl⟩ := hinv
    have hinv1 : StInv m ⟨st.module_order, insertVisited name st.visited_modules⟩ :=
      ⟨hnd, fun x hx => mem_insertVisited.2 (Or.inr (hov x hx)), hok, hcl⟩
    cases heq : walkDeps (fun dep st => walkModule m f dep st) name
        (collectDeps m name) ⟨st.module_order, insertVisited name st.visited_modules⟩ with
    | error e =>
      rw [heq] at h
      cases h
    | ok st2' =>
      rw [heq] at h
      cases h
      obtain ⟨⟨n2, hg2⟩, hinv2, hdeps⟩ :=
        walkDeps_ok_spec m _ (fun dep st st2 hh => ih dep st st2 hh) name
          (collectDeps m name) _ st2' heq
          (fun d hd => mem_keys_of_mem_collectDeps hd) hinv1
    -- facts about the intermediate state
      have hvis2 : ∀ x, x ∈ st2'.visited_modules ↔
          (x ∈ st.visited_modules ∨ x = name) ∨ x ∈ n2 := by
        intro x
        rw [hg2.2.1 x, mem_insertVisited]
        tauto
      have hname_n2 : name ∉ n2 := fun hx =>
        hg2.2.2.1 name hx self_mem_insertVisited
      have hname_ord : name ∉ st.module_order := fun hx => hnv (hov name hx)
      have hname_ord2 : name ∉ st2'.module_order := by
        rw [hg2.1]
        intro hx
        rcases List.mem_append.1 hx with hx | hx
        · exact hname_ord hx
        · exact hname_n2 hx
      constructor
      · refine ⟨n2 ++ [name], ⟨?_, ?_, ?_, ?_⟩, by simp⟩
        · show st2'.module_order ++ [name] = st.module_order ++ (n2 ++ [name])
          rw [hg2.1, List.append_assoc]
        · intro x
          show x ∈ st2'.visited_modules ↔ _
          rw [hvis2 x]
          simp only [List.mem_append, List.mem_singleton]
          tauto
        · intro x hx
          rcases List.mem_append.1 hx with hx | hx
          · intro hv
            exact hg2.2.2.1 x hx (mem_insertVisited.2 (Or.inr hv))
          · have : x = name := by simpa using hx
            subst this
            exact hnv
        · intro x hx
          rcases List.mem_append.1 hx with hx | hx
          · exact hg2.2.2.2 x hx
          · have : x = name := by simpa using hx
            subst this
            exact hk
      · obtain ⟨hnd2, hov2, hok2, hcl2⟩ := hinv2
        refine ⟨?_, ?_, ?_, ?_⟩
        · show (st2'.module_order ++ [name]).Nodup
          simp only [List.nodup_append, List.nodup_cons, List.not_mem_nil,
            not_false_iff, List.nodup_nil, and_true, true_and]
          constructor
          · exact hnd2
          · intro x hx
            simp only [List.mem_singleton]
            intro he
            subst he
            exact hname_ord2 hx
        · intro x hx
          show x ∈ st2'.visited_modules
          rcases List.mem_append.1 hx with hx | hx
          · exact hov2 x hx
          · have : x = name := by simpa using hx
            subst this
            rw [hvis2]
            tauto
        · intro x hx
          rcases List.mem_append.1 hx with hx | hx
          · exact hok2 x hx
          · have : x = name := by simpa using hx
            subst this
            exact hk
        · exact closed_append hcl2 hname_ord2 hdeps

/-- Invariant of the top-level loop: additionally, visited = ordered. -/
def TopInv (m : ModuleMap) (st : WalkState) : Prop :=
  StInv m st ∧ ∀ x, x ∈ st.visited_modules ↔ x ∈ st.module_order

theorem topInv_next {m : ModuleMap} {st st2 : WalkState} {new : List String}
    (ht : TopInv m st) (hg : GrowBy m st st2 new) (hinv2 : StInv m st2) :
    TopInv m st2 := by
  obtain ⟨-, hvo⟩ := ht
  refine ⟨hinv2, fun x => ?_⟩
  rw [hg.2.1 x, hvo x, hg.1, List.mem_append]

theorem resolveLoop_ok_spec (m : ModuleMap) :
    ∀ names st order, resolveLoop m names st = .ok order →
      (∀ n ∈ names, n ∈ keys m) → TopInv m st → StInv m st →
      order.Nodup ∧ (∀ x ∈ order, x ∈ keys m) ∧ Closed m order ∧
        (∀ n ∈ names, n ∈ order) ∧ ∃ new, order = st.module_order ++ new := by
  intro names
  induction names with
  | nil =>
    intro st order h _ _ hinv
    rw [resolveLoop] at h
    cases h
    exact ⟨hinv.1, hinv.2.2.1, hinv.2.2.2, by simp, ⟨[], by simp⟩⟩
  | cons name rest ih =>
    intro st order h hk ht hinv
    rw [resolveLoop] at h
    by_cases h1 : name ∈ st.module_order
    · rw [if_pos h1] at h
      obtain ⟨hnd, hks, hcl, hrest, new, hord⟩ :=
        ih st order h (fun d hd => hk d (List.mem_cons_of_mem _ hd)) ht hinv
      refine ⟨hnd, hks, hcl, fun d hd => ?_, ⟨new, hord⟩⟩
      rcases List.mem_cons.1 hd with rfl | hd
      · rw [hord]
        exact List.mem_append.2 (Or.inl h1)
      · exact hrest d hd
    · rw [if_neg h1] at h
      cases heq : walkModule m (resolveFuel m) name st with
      | error e => rw [heq] at h; cases h
      | ok st1 =>
        rw [heq] at h
        have hnv : name ∉ st.visited_modules := fun hv => h1 ((ht.2 name).1 hv)
        obtain ⟨⟨n1, hg1, hname⟩, hinv1⟩ :=
          walkModule_ok_spec m (resolveFuel m) name st st1 heq
            (hk name (List.mem_cons_self _ _)) hnv ht.1
        obtain ⟨hnd, hks, hcl, hrest, new, hord⟩ :=
          ih st1 order h (fun d hd => hk d (List.mem_cons_of_mem _ hd))
            (topInv_next ht hg1 hinv1) hinv1
        refine ⟨hnd, hks, hcl, fun d hd => ?_, ⟨n1 ++ new, ?_⟩⟩
        · rcases List.mem_cons.1 hd with rfl | hd
          · rw [hord, hg1.1]
            exact List.mem_append.2 (Or.inl (List.mem_append.2 (Or.inr hname)))
          · exact hrest d hd
        · rw [hord, hg1.1, List.append_assoc]

/-- Summary of a successful `resolve_depencies` run. -/
theorem resolve_ok_spec {m : ModuleMap} {present order : List String}
    (h : resolve_depencies m present = .ok order) :
    order.Nodup ∧ (∀ x ∈ order, x ∈ keys m) ∧ (∀ n ∈ keys m, n ∈ order) ∧
      Closed m order := by
  rw [resolve_depencies] at h
  cases hm : findMissing m present with
  | some p =>
    obtain ⟨miss, req⟩ := p
    rw [hm] at h
    cases h
  | none =>
    rw [hm] at h
    have htop : TopInv m ⟨[], []⟩ :=
      ⟨⟨List.nodup_nil, by simp, by simp, by intro x hx; cases hx⟩, by simp⟩
    obtain ⟨hnd, hks, hcl, hkeys, -⟩ :=
      resolveLoop_ok_spec m (keys m) ⟨[], []⟩ order h (fun n hn => hn) htop htop.1
    exact ⟨hnd, hks, hkeys, hcl⟩

/-- An edge forces a strictly smaller index in any closed order. -/
theorem indexOf_lt_of_hasEdge {m : ModuleMap} {order : List String} {p q : String}
    (hcl : Closed m order) (hkeys : ∀ n ∈ keys m, n ∈ order)
    (h : HasEdge m p q) : order.indexOf q < order.indexOf p := by
  obtain ⟨data, hl, -, -⟩ := id h
  have hp : p ∈ order := hkeys p (mem_keys_of_lookup hl)
  exact (hcl p hp q (mem_collectDeps_of_hasEdge h)).2

/-- C1. For every module map accepted by `resolve_depencies`, the
returned order is a permutation of the map keys in which every in-map
`depends_on` and `init_after` prerequisite of a module appears strictly
before it. -/
theorem resolve_depencies_topological (m : ModuleMap) (present : List String)
    (order : List String) (hk : (keys m).Nodup)
    (h : resolve_depencies m present = .ok order) :
    order.Perm (keys m) ∧
      ∀ p data, m.lookup p = some data →
        ∀ q, (q ∈ data.depends_on ∨ q ∈ data.init_after) → q ∈ keys m →
          order.indexOf q < order.indexOf p := by
  obtain ⟨hnd, hks, hkeys, hcl⟩ := resolve_ok_spec h
  constructor
  · exact (List.subperm_of_subset hnd hks).antisymm (List.subperm_of_subset hk hkeys)
  · intro p data hl q hq hqk
    exact indexOf_lt_of_hasEdge hcl hkeys ⟨data, hl, hq, hasKey_of_mem_keys hqk⟩

/-- C1 witness: the map `{b: depends_on [a], a: {}}` resolves to
`[a, b]`, which the theorem certifies. -/
theorem resolve_depencies_topological_witness :
    (["a", "b"] : List String).Perm
        (keys [("b", ⟨["a"], []⟩), ("a", ⟨[], []⟩)]) ∧
      ∀ p data, ([("b", ⟨["a"], []⟩), ("a", ⟨[], []⟩)] : ModuleMap).lookup p
          = some data →
        ∀ q, (q ∈ data.depends_on ∨ q ∈ data.init_after) →
          q ∈ keys [("b", ⟨["a"], []⟩), ("a", ⟨[], []⟩)] →
          (["a", "b"] : List String).indexOf q < (["a", "b"] : List String).indexOf p :=
  resolve_depencies_topological [("b", ⟨["a"], []⟩), ("a", ⟨[], []⟩)] []
    ["a", "b"] (by decide) rfl

/-! ### Shape of walk errors, and fuel sufficiency -/

theorem stInv_insert {m : ModuleMap} {st : WalkState} (name : String)
    (hinv : StInv m st) :
    StInv m ⟨st.module_order, insertVisited name st.visited_modules⟩ :=
  ⟨hinv.1, fun x hx => mem_insertVisited.2 (Or.inr (hinv.2.1 x hx)),
    hinv.2.2.1, hinv.2.2.2⟩

theorem walkDeps_error_shape
    (walkFn : String → WalkState → Except DepError WalkState)
    (hW : ∀ dep st e, walkFn dep st = .error e →
      (∃ a b, e = .circularDependency a b) ∨ e = .fuelOut)
    (name : String) :
    ∀ deps st e, walkDeps walkFn name deps st = .error e →
      (∃ a b, e = .circularDependency a b) ∨ e = .fuelOut := by
  intro deps
  induction deps with
  | nil =>
    intro st e h
    rw [walkDeps] at h
    cases h
  | cons dep rest ih =>
    intro st e h
    rw [walkDeps] at h
    by_cases h1 : dep ∈ st.module_order
    · rw [if_pos h1] at h
      exact ih st e h
    · rw [if_neg h1] at h
      by_cases h2 : dep ∈ st.visited_modules
      · rw [if_pos h2] at h
        cases h
        exact Or.inl ⟨dep, name, rfl⟩
      · rw [if_neg h2] at h
        cases heq : walkFn dep st with
        | error e0 =>
          rw [heq] at h
          cases h
          exact hW dep st _ heq
        | ok st1 =>
          rw [heq] at h
          exact ih st1 e h

theorem walkModule_error_shape (m : ModuleMap) :
    ∀ fuel name st e, walkModule m fuel name st = .error e →
      (∃ a b, e = .circularDependency a b) ∨ e = .fuelOut := by
  intro fuel
  induction fuel with
  | zero =>
    intro name st e h
    rw [walkModule] at h
    cases h
    exact Or.inr rfl
  | succ f ih =>
    intro name st e h
    rw [walkModule] at h
    cases heq : walkDeps (fun dep st => walkModule m f dep st) name
        (collectDeps m name) ⟨st.module_order, insertVisited name st.visited_modules⟩ with
    | error e0 =>
      rw [heq] at h
      cases h
      exact walkDeps_error_shape _ (fun dep st e hh => ih dep st e hh) name _ _ _ heq
    | ok st2 =>
      rw [heq] at h
      cases h

/-- Keys of the map not yet in the visited set. -/
def remaining (m : ModuleMap) (st : WalkState) : Nat :=
  ((keys m).toFinset \ st.visited_modules.toFinset).card

theorem remaining_pos {m : ModuleMap} {st : WalkState} {name : String}
    (hk : name ∈ keys m) (hnv : name ∉ st.visited_modules) :
    0 < remaining m st :=
  Finset.card_pos.2 ⟨name, Finset.mem_sdiff.2
    ⟨List.mem_toFinset.2 hk, fun hc => hnv (List.mem_toFinset.1 hc)⟩⟩

theorem remaining_le {m : ModuleMap} {st st2 : WalkState}
    (h : ∀ x, x ∈ st.visited_modules → x ∈ st2.visited_modules) :
    remaining m st2 ≤ remaining m st := by
  apply Finset.card_le_card
  intro x hx
  rw [Finset.mem_sdiff] at hx ⊢
  exact ⟨hx.1, fun hc => hx.2 (List.mem_toFinset.2 (h x (List.mem_toFinset.1 hc)))⟩

theorem remaining_insert_lt {m : ModuleMap} {st : WalkState} {name : String}
    (hk : name ∈ keys m) (hnv : name ∉ st.visited_modules) :
    remaining m ⟨st.module_order, insertVisited name st.visited_modules⟩ <
      remaining m st := by
  apply Finset.card_lt_card
  have hsub : (keys m).toFinset \ (insertVisited name st.visited_modules).toFinset ⊆
      (keys m).toFinset \ st.visited_modules.toFinset := by
    intro x hx
    rw [Finset.mem_sdiff] at hx ⊢
    exact ⟨hx.1, fun hc =>
      hx.2 (List.mem_toFinset.2 (mem_insertVisited.2 (Or.inr (List.mem_toFinset.1 hc))))⟩
  rw [Finset.ssubset_iff_of_subset hsub]
  refine ⟨name, Finset.mem_sdiff.2
    ⟨List.mem_toFinset.2 hk, fun hc => hnv (List.mem_toFinset.1 hc)⟩, fun hc => ?_⟩
  exact (Finset.mem_sdiff.1 hc).2 (List.mem_toFinset.2 self_mem_insertVisited)

theorem remaining_le_length (m : ModuleMap) (st : WalkState) :
    remaining m st ≤ m.length := by
  have h1 : remaining m st ≤ (keys m).toFinset.card :=
    Finset.card_le_card (Finset.sdiff_subset)
  have h2 : (keys m).toFinset.card ≤ (keys m).length := (keys m).toFinset_card_le
  have h3 : (keys m).length = m.length := List.length_map m Prod.fst
  omega

/-- With fuel exceeding the number of unvisited keys, the walk never
reports fuel exhaustion. -/
theorem walkModule_no_fuelOut (m : ModuleMap) :
    ∀ fuel name st, name ∈ keys m → name ∉ st.visited_modules → StInv m st →
      remaining m st ≤ fuel →
      walkModule m fuel name st ≠ .error .fuelOut := by
  intro fuel
  induction fuel with
  | zero =>
    intro name st hk hnv _ hrem _
    have hpos := remaining_pos hk hnv
    omega
  | succ f ih =>
    intro name st hk hnv hinv hrem
    rw [walkModule]
    have hrem1 : remaining m ⟨st.module_order, insertVisited name st.visited_modules⟩ ≤ f := by
      have := @remaining_insert_lt m st name hk hnv
      omega
    have hloop : ∀ deps st', (∀ d ∈ deps, d ∈ keys m) → StInv m st' →
        remaining m st' ≤ f →
        walkDeps (fun dep st => walkModule m f dep st) name deps st' ≠
          .error .fuelOut := by
      intro deps
      induction deps with
      | nil =>
        intro st' _ _ _ h
        rw [walkDeps] at h
        cases h
      | cons dep rest ihd =>
        intro st' hkd hinv' hrem' h
        rw [walkDeps] at h
        by_cases h1 : dep ∈ st'.module_order
        · rw [if_pos h1] at h
          exact ihd st' (fun d hd => hkd d (List.mem_cons_of_mem _ hd)) hinv' hrem' h
        · rw [if_neg h1] at h
          by_cases h2 : dep ∈ st'.visited_modules
          · rw [if_pos h2] at h
            cases h
          · rw [if_neg h2] at h
            cases heq : walkModule m f dep st' with
            | error e0 =>
              rw [heq] at h
              cases h
              exact ih dep st' (hkd dep (List.mem_cons_self _ _)) h2 hinv' hrem' heq
            | ok st1 =>
              rw [heq] at h
              obtain ⟨⟨n1, hg1, -⟩, hinv1'⟩ :=
                walkModule_ok_spec m f dep st' st1 heq
                  (hkd dep (List.mem_cons_self _ _)) h2 hinv'
              have hrem1' : remaining m st1 ≤ f :=
                le_trans (remaining_le (fun x hx => (hg1.2.1 x).2 (Or.inl hx))) hrem'
              exact ihd st1 (fun d hd => hkd d (List.mem_cons_of_mem _ hd)) hinv1' hrem1' h
    intro h
    cases heq : walkDeps (fun dep st => walkModule m f dep st) name
        (collectDeps m name) ⟨st.module_order, insertVisited name st.visited_modules⟩ with
    | error e0 =>
      rw [heq] at h
      cases h
      exact hloop (collectDeps m name) _
        (fun d hd => mem_keys_of_mem_collectDeps hd)
        (stInv_insert name hinv) hrem1 heq
    | ok st2 =>
      rw [heq] at h
      cases h

/-- Any error surfacing from the top-level loop (after the missing-
dependency check) is a circular-dependency error. -/
theorem resolveLoop_error_shape (m : ModuleMap) :
    ∀ names st e, resolveLoop m names st = .error e →
      (∀ n ∈ names, n ∈ keys m) → TopInv m st →
      ∃ a b, e = .circularDependency a b := by
  intro names
  induction names with
  | nil =>
    intro st e h _ _
    rw [resolveLoop] at h
    cases h
  | cons name rest ih =>
    intro st e h hk ht
    rw [resolveLoop] at h
    by_cases h1 : name ∈ st.module_order
    · rw [if_pos h1] at h
      exact ih st e h (fun d hd => hk d (List.mem_cons_of_mem _ hd)) ht
    · rw [if_neg h1] at h
      have hnv : name ∉ st.visited_modules := fun hv => h1 ((ht.2 name).1 hv)
      cases heq : walkModule m (resolveFuel m) name st with
      | error e0 =>
        rw [heq] at h
        cases h
        rcases walkModule_error_shape m _ name st _ heq with hc | hfo
        · exact hc
        · exfalso
          rw [hfo] at heq
          refine walkModule_no_fuelOut m (resolveFuel m) name st
            (hk name (List.mem_cons_self _ _)) hnv ht.1 ?_ heq
          have := remaining_le_length m st
          rw [resolveFuel]
          omega
      | ok st1 =>
        rw [heq] at h
        obtain ⟨⟨n1, hg1, -⟩, hinv1⟩ :=
          walkModule_ok_spec m _ name st st1 heq
            (hk name (List.mem_cons_self _ _)) hnv ht.1
        exact ih st1 e h (fun d hd => hk d (List.mem_cons_of_mem _ hd))
          (topInv_next ht hg1 hinv1)

/-! ### The missing-dependency check -/

theorem topInv_nil (m : ModuleMap) : TopInv m ⟨[], []⟩ :=
  ⟨⟨List.nodup_nil, by simp, by simp, by intro x hx; cases hx⟩, by simp⟩

theorem findMissing_none_iff (m : ModuleMap) (present : List String) :
    findMissing m present = none ↔
      ∀ it ∈ m, ∀ dep ∈ it.2.depends_on, hasKey m dep = true ∨ dep ∈ present := by
  rw [findMissing, List.findSome?_eq_none_iff]
  constructor
  · intro h it hit dep hdep
    have h1 := h it hit
    rw [Option.map_eq_none', List.find?_eq_none] at h1
    have h2 := h1 dep hdep
    cases hkk : hasKey m dep with
    | true => exact Or.inl rfl
    | false =>
      right
      by_contra hp
      exact h2 (by simp [hkk, hp])
  · intro h it hit
    rw [Option.map_eq_none', List.find?_eq_none]
    intro dep hdep
    rcases h it hit dep hdep with hkk | hp
    · simp [hkk]
    · simp [hp]

theorem findMissing_some_spec {m : ModuleMap} {present : List String}
    {miss req : String} (h : findMissing m present = some (miss, req)) :
    ∃ data, (req, data) ∈ m ∧ miss ∈ data.depends_on ∧
      hasKey m miss = false ∧ miss ∉ present := by
  rw [findMissing, List.findSome?_eq_some_iff] at h
  obtain ⟨l₁, a, l₂, hm, ha, -⟩ := h
  rw [Option.map_eq_some'] at ha
  obtain ⟨dep, hfind, heq⟩ := ha
  rw [Prod.mk.injEq] at heq
  obtain ⟨rfl, hreq⟩ := heq
  have hp := List.find?_some hfind
  have hmem := List.mem_of_find?_eq_some hfind
  rw [Bool.and_eq_true, Bool.not_eq_true', Bool.not_eq_true'] at hp
  have ham : a ∈ m := by
    rw [hm]
    exact List.mem_append.2 (Or.inr (List.mem_cons_self _ _))
  refine ⟨a.2, ?_, hmem, hp.1, ?_⟩
  · rw [← hreq]
    simpa using ham
  · intro hin
    rw [(by simp [hin] : (present.contains dep) = true)] at hp
    cases hp.2

/-- C3. A `depends_on` entry that is neither a key of the map nor in
the present set makes `resolve_depencies` raise
`DependencyNotPresentError` carrying such a missing name and the module
requiring it; when no such entry exists this error is never raised. -/
theorem resolve_depencies_missing_dependency (m : ModuleMap) (present : List String)
    (hk : (keys m).Nodup) :
    ((∃ p data q, (p, data) ∈ m ∧ q ∈ data.depends_on ∧ q ∉ keys m ∧ q ∉ present) →
      ∃ miss req dreq, resolve_depencies m present =
          .error (.dependencyNotPresent miss req) ∧
        m.lookup req = some dreq ∧ miss ∈ dreq.depends_on ∧
        miss ∉ keys m ∧ miss ∉ present) ∧
    ((∀ p data, (p, data) ∈ m → ∀ q ∈ data.depends_on, q ∈ keys m ∨ q ∈ present) →
      ∀ miss req, resolve_depencies m present ≠
        .error (.dependencyNotPresent miss req)) := by
  constructor
  · rintro ⟨p, data, q, hpm, hqd, hqk, hqp⟩
    cases hm : findMissing m present with
    | none =>
      exfalso
      rcases (findMissing_none_iff m present).1 hm (p, data) hpm q hqd with hkk | hpp
      · exact hqk (mem_keys_of_hasKey hkk)
      · exact hqp hpp
    | some pr =>
      obtain ⟨miss, req⟩ := pr
      obtain ⟨dreq, hreqm, hmd, hmk, hmp⟩ := findMissing_some_spec hm
      refine ⟨miss, req, dreq, ?_, lookup_of_mem_nodup hk hreqm, hmd, ?_, hmp⟩
      · rw [resolve_depencies, hm]
      · intro hin
        rw [hasKey_of_mem_keys hin] at hmk
        cases hmk
  · intro hgood miss req h
    have hm : findMissing m present = none :=
      (findMissing_none_iff m present).2 fun it hit dep hdep =>
        (hgood it.1 it.2 (by simpa using hit) dep hdep).imp hasKey_of_mem_keys id
    rw [resolve_depencies, hm] at h
    obtain ⟨a, b, habs⟩ :=
      resolveLoop_error_shape m (keys m) ⟨[], []⟩ _ h (fun n hn => hn) (topInv_nil m)
    cases habs

/-- C3 witness: `{b: depends_on [c]}` raises the missing-dependency
error, while `{a: {}}` never does. -/
theorem resolve_depencies_missing_dependency_witness :
    (∃ miss req dreq,
      resolve_depencies [("b", ⟨["c"], []⟩)] [] =
          .error (.dependencyNotPresent miss req) ∧
        ([("b", ⟨["c"], []⟩)] : ModuleMap).lookup req = some dreq ∧
        miss ∈ dreq.depends_on ∧
        miss ∉ keys [("b", ⟨["c"], []⟩)] ∧ miss ∉ ([] : List String)) ∧
    (∀ miss req, resolve_depencies [("a", ⟨[], []⟩)] [] ≠
        .error (.dependencyNotPresent miss req)) := by
  constructor
  · exact (resolve_depencies_missing_dependency [("b", ⟨["c"], []⟩)] [] (by decide)).1
      ⟨"b", ⟨["c"], []⟩, "c", by decide, by decide, by decide, by decide⟩
  · refine (resolve_depencies_missing_dependency [("a", ⟨[], []⟩)] [] (by decide)).2 ?_
    rintro p data hpd q hq
    simp only [List.mem_singleton, Prod.mk.injEq] at hpd
    obtain ⟨rfl, rfl⟩ := hpd
    cases hq

/-! ### Cycles -/

/-- Along any chain of in-map edges, indices in a closed order strictly
decrease. -/
theorem indexOf_lt_of_transGen {m : ModuleMap} {order : List String} {x y : String}
    (hcl : Closed m order) (hkeys : ∀ n ∈ keys m, n ∈ order)
    (h : Relation.TransGen (HasEdge m) x y) :
    order.indexOf y < order.indexOf x := by
  induction h with
  | single he => exact indexOf_lt_of_hasEdge hcl hkeys he
  | tail _ he ih =>
    exact Nat.lt_trans (indexOf_lt_of_hasEdge hcl hkeys he) ih

/-- C2 (amended): for a module map that passes the missing-dependency
check, a cycle in the in-map `depends_on`/`init_after` graph makes
`resolve_depencies` raise a `CircularDependencyError` (carrying a pair
of module names), and no order is returned. -/
theorem resolve_depencies_cycle (m : ModuleMap) (present : List String)
    (hmiss : findMissing m present = none)
    (hcyc : ∃ x, Relation.TransGen (HasEdge m) x x) :
    ∃ a b, resolve_depencies m present = .error (.circularDependency a b) := by
  have hres : resolve_depencies m present = resolveLoop m (keys m) ⟨[], []⟩ := by
    rw [resolve_depencies, hmiss]
  cases heq : resolveLoop m (keys m) ⟨[], []⟩ with
  | ok order =>
    exfalso
    obtain ⟨x, hx⟩ := hcyc
    have hspec := resolve_ok_spec (hres.trans heq)
    have := indexOf_lt_of_transGen hspec.2.2.2 hspec.2.2.1 hx
    omega
  | error e =>
    obtain ⟨a, b, rfl⟩ :=
      resolveLoop_error_shape m (keys m) ⟨[], []⟩ e heq (fun n hn => hn) (topInv_nil m)
    exact ⟨a, b, hres.trans heq⟩

/-- C2 counterexample to the claim as stated: `{a: depends_on [a, x]}`
has an in-map cycle (`a → a`), yet `resolve_depencies` raises the
missing-dependency error for `x`, not a `CircularDependencyError`. -/
theorem resolve_depencies_cycle_counterexample :
    HasEdge [("a", ⟨["a", "x"], []⟩)] "a" "a" ∧
    resolve_depencies [("a", ⟨["a", "x"], []⟩)] [] =
      .error (.dependencyNotPresent "x" "a") ∧
    ¬ ∃ a b, resolve_depencies [("a", ⟨["a", "x"], []⟩)] [] =
      .error (.circularDependency a b) := by
  refine ⟨⟨⟨["a", "x"], []⟩, rfl, Or.inl (by decide), by decide⟩, rfl, ?_⟩
  rintro ⟨a, b, h⟩
  rw [(rfl : resolve_depencies [("a", ⟨["a", "x"], []⟩)] [] =
    .error (.dependencyNotPresent "x" "a"))] at h
  cases h

/-- C2 witness: the two-module cycle `{a: depends_on [b], b: depends_on
[a]}` passes the missing check and raises a circular-dependency error. -/
theorem resolve_depencies_cycle_witness :
    ∃ a b, resolve_depencies [("a", ⟨["b"], []⟩), ("b", ⟨["a"], []⟩)] [] =
      .error (.circularDependency a b) := by
  have e1 : HasEdge [("a", ⟨["b"], []⟩), ("b", ⟨["a"], []⟩)] "a" "b" :=
    ⟨⟨["b"], []⟩, rfl, Or.inl (by decide), by decide⟩
  have e2 : HasEdge [("a", ⟨["b"], []⟩), ("b", ⟨["a"], []⟩)] "b" "a" :=
    ⟨⟨["a"], []⟩, rfl, Or.inl (by decide), by decide⟩
  exact resolve_depencies_cycle [("a", ⟨["b"], []⟩), ("b", ⟨["a"], []⟩)] [] rfl
    ⟨"a", Relation.TransGen.head e1 (Relation.TransGen.single e2)⟩

end Dependency

namespace Manager

/-- The slice of `ModuleDescriptor` state driven by `ModuleManager`
(module/descriptor.py, module/manager.py). `install_ok` abstracts a
requirements-cache hit or a successful `install_requirements` call;
`init_ok` abstracts `import_module` + `Module(...)` + `init()`
succeeding; `deinit_ok` abstracts `deinit()` returning normally. -/
structure Descriptor where
  name : String
  requirements : String
  depends_on : List String
  prepared : Bool
  activated : Bool
  install_ok : Bool
  init_ok : Bool
  deinit_ok : Bool
deriving DecidableEq, Repr

/-- Python `sep.join(parts)`. -/
def strJoin (sep : String) : List String → String
  | [] => ""
  | [x] => x
  | x :: y :: ys => x ++ sep ++ strJoin sep (y :: ys)

/-- Observable state threaded through `_prepare_modules`:
`cache_hash_chunks` as in the source, the processed descriptors, and
the `(module_name, cache_hash)` pairs computed along the way. -/
structure PrepareState where
  cache_hash_chunks : List String
  descriptors : List Descriptor
  hashes : List (String × String)
deriving DecidableEq, Repr

/-- One iteration of the descriptor loop of `_prepare_modules`
(manager.py lines 230-299), parametrized by the hash function `H`
(modelling `hashlib.sha256(...).hexdigest()` on the UTF-8 bytes).
A module in the `skip` setting is skipped before any hashing; on an
install failure the loop `continue`s without setting `prepared`, but
the chunk list has already been extended. Temp-file, site-path and
constraint bookkeeping are file-system effects and are not modelled. -/
def prepareStep (H : String → String) (skip : List String)
    (st : PrepareState) (d : Descriptor) : PrepareState :=
  if d.name ∈ skip then
    { st with descriptors := st.descriptors ++ [d] }
  else
    let requirements_hash := H d.requirements
    let chunks := st.cache_hash_chunks ++ [requirements_hash]
    let cache_hash := H (strJoin "_" chunks)
    if d.install_ok then
      { cache_hash_chunks := chunks,
        descriptors := st.descriptors ++ [{ d with prepared := true }],
        hashes := st.hashes ++ [(d.name, cache_hash)] }
    else
      { cache_hash_chunks := chunks,
        descriptors := st.descriptors ++ [d],
        hashes := st.hashes ++ [(d.name, cache_hash)] }

def prepareLoop (H : String → String) (skip : List String) :
    PrepareState → List Descriptor → PrepareState
  | st, [] => st
  | st, d :: rest => prepareLoop H skip (prepareStep H skip st d) rest

/-- `_prepare_modules` (manager.py lines 222-301); `chunks0` is the
chunk list carried over from an earlier phase (`prepared_items`). -/
def prepare_modules (H : String → String) (skip : List String)
    (chunks0 : List String) (ds : List Descriptor) : PrepareState :=
  prepareLoop H skip ⟨chunks0, [], []⟩ ds

/-- One iteration of the activation loop of `_activate_modules`
(manager.py lines 312-354). The state is the `self.modules` registry
(insertion-ordered dict) plus the processed descriptors. NOTE: when
`prepared` is false the source logs "Skipping un-prepared module" but
does NOT skip (there is no `continue`), so the model falls through
exactly like the code. `activate_path` / `activate_loader`
(sys.path / sys.meta_path effects) are not modelled. -/
def activateStep (modules : List (String × Descriptor)) (d : Descriptor) :
    List (String × Descriptor) × Descriptor :=
  if d.depends_on.all (fun dep => (modules.lookup dep).isSome) then
    if d.init_ok then
      (dictInsert modules d.name { d with activated := true },
        { d with activated := true })
    else
      (modules, d)
  else
    (modules, d)

/-- `_activate_modules` over a starting registry: returns the final
registry and the processed descriptors. -/
def activateLoop (modules : List (String × Descriptor)) :
    List Descriptor → List (String × Descriptor) × List Descriptor
  | [] => (modules, [])
  | d :: rest =>
    ((activateLoop (activateStep modules d).1 rest).1,
      (activateStep modules d).2 ::
        (activateLoop (activateStep modules d).1 rest).2)

def activate_modules (modules : List (String × Descriptor))
    (ds : List Descriptor) : List (String × Descriptor) × List Descriptor :=
  activateLoop modules ds

/-- `deinit_modules` (manager.py lines 368-376): iterate the registry
keys in reverse insertion order, attempting `deinit()` for each inside
`try/except: pass`. The result is the trace of attempted calls:
`(module_name, whether deinit() returned normally)`. -/
def deinit_modules (modules : List (String × Descriptor)) :
    List (String × Bool) :=
  (modules.map Prod.fst).reverse.map fun n =>
    match modules.lookup n with
    | some d => (n, d.deinit_ok)
    | none => (n, false)

/-- C4 (code bug): a descriptor whose preparation was skipped via the
`skip` setting (so `prepared = false`) is still activated by
`_activate_modules` — the loop logs "Skipping un-prepared module" but
has no `continue`, so the module is imported, init()-ed, inserted into
the registry, and ends with `activated = true` while
`prepared = false`. -/
theorem activate_modules_unprepared_code_bug :
    ((activate_modules []
        (prepare_modules (fun s => s) ["a"] []
          [{ name := "a", requirements := "", depends_on := [],
             prepared := false, activated := false,
             install_ok := true, init_ok := true,
             deinit_ok := true }]).descriptors).2.map
      (fun d => (d.name, d.activated, d.prepared))) = [("a", true, false)] ∧
    ((activate_modules []
        (prepare_modules (fun s => s) ["a"] []
          [{ name := "a", requirements := "", depends_on := [],
             prepared := false, activated := false,
             install_ok := true, init_ok := true,
             deinit_ok := true }]).descriptors).1.map Prod.fst) = ["a"] :=
  ⟨rfl, rfl⟩

/-! ### Activation order and deinit order -/

theorem lookup_eq_none_of_not_mem_keys {l : List (String × α)} {k : String}
    (h : k ∉ l.map Prod.fst) : l.lookup k = none := by
  rw [List.lookup_eq_none_iff]
  intro p hp
  simp only [bne_iff_ne, ne_eq]
  rintro rfl
  exact h (List.mem_map_of_mem Prod.fst hp)

theorem dictInsert_fresh {l : List (String × α)} {k : String} (v : α)
    (h : k ∉ l.map Prod.fst) : dictInsert l k v = l ++ [(k, v)] := by
  rw [dictInsert, lookup_eq_none_of_not_mem_keys h]
  rfl

/-- After a run of the activation loop over fresh, initially
non-activated descriptors, the registry keys extend the initial ones by
exactly the names of the descriptors that came out activated, in
processing order. -/
theorem activate_registry_spec :
    ∀ (ds : List Descriptor) (reg : List (String × Descriptor)),
      (reg.map Prod.fst ++ ds.map (fun d => d.name)).Nodup →
      (∀ d ∈ ds, d.activated = false) →
      (activateLoop reg ds).1.map Prod.fst =
        reg.map Prod.fst ++
          (((activateLoop reg ds).2.filter
            (fun d => d.activated)).map (fun d => d.name)) := by
  intro ds
  induction ds with
  | nil =>
    intro reg _ _
    simp [activateLoop]
  | cons d rest ih =>
    intro reg hnd h0
    have hnd2 : (reg.map Prod.fst ++ rest.map (fun d => d.name)).Nodup := by
      refine List.Nodup.sublist ?_ hnd
      exact List.Sublist.append (List.Sublist.refl _)
        (List.sublist_cons_self _ _)
    rw [activateLoop, activateStep]
    by_cases h1 : (d.depends_on.all fun dep => (reg.lookup dep).isSome) = true
    · rw [if_pos h1]
      by_cases h2 : d.init_ok = true
      · rw [if_pos h2]
        have hfresh : d.name ∉ reg.map Prod.fst := by
          intro hmem
          have := (List.nodup_append.1 hnd).2.2
          exact this hmem (by simp)
        simp only [dictInsert_fresh _ hfresh]
        have hnd3 : ((reg ++ [(d.name, { d with activated := true })]).map Prod.fst ++
            rest.map (fun d => d.name)).Nodup := by
          simpa [List.append_assoc] using hnd
        have hih := ih (reg ++ [(d.name, { d with activated := true })]) hnd3
          (fun x hx => h0 x (List.mem_cons_of_mem _ hx))
        rw [hih]
        simp
      · rw [if_neg h2]
        simp only
        rw [ih reg hnd2 (fun x hx => h0 x (List.mem_cons_of_mem _ hx))]
        have hda : d.activated = false := h0 d (List.mem_cons_self _ _)
        simp [hda]
    · rw [if_neg h1]
      simp only
      rw [ih reg hnd2 (fun x hx => h0 x (List.mem_cons_of_mem _ hx))]
      have hda : d.activated = false := h0 d (List.mem_cons_self _ _)
      simp [hda]

theorem deinit_modules_names (reg : List (String × Descriptor)) :
    (deinit_modules reg).map Prod.fst = (reg.map Prod.fst).reverse := by
  rw [deinit_modules, List.map_map]
  have h : (Prod.fst ∘ fun n =>
      match reg.lookup n with
      | some d => ((n : String), d.deinit_ok)
      | none => (n, false)) = id := by
    funext n
    cases hh : reg.lookup n <;> simp [Function.comp, hh]
  rw [h, List.map_id]

/-- C5. Starting from an empty registry, `deinit_modules` attempts
`deinit()` for exactly the modules that were activated, in the reverse
of their activation (registry-insertion) order; the `deinit_ok` fields
are arbitrary, so a `deinit()` that raises (swallowed by
`try/except: pass`) does not remove any later module from the trace,
and every registry entry is attempted. -/
theorem deinit_modules_reverse_activation (ds : List Descriptor)
    (hn : (ds.map (fun d => d.name)).Nodup)
    (h0 : ∀ d ∈ ds, d.activated = false) :
    ((deinit_modules (activate_modules [] ds).1).map Prod.fst =
      ((((activate_modules [] ds).2.filter (fun d => d.activated)).map
        (fun d => d.name)).reverse)) ∧
    ∀ n ∈ (activate_modules [] ds).1.map Prod.fst,
      n ∈ (deinit_modules (activate_modules [] ds).1).map Prod.fst := by
  have hreg := activate_registry_spec ds [] (by simpa using hn) h0
  constructor
  · rw [deinit_modules_names, activate_modules, hreg]
    simp
  · intro n hmem
    rw [deinit_modules_names]
    exact List.mem_reverse.2 hmem

/-- C5 witness: two modules activate in order `[a, b]`; module `b`'s
`deinit()` raises, yet the deinit trace is `[b, a]` — the exact reverse
of activation order. -/
theorem deinit_modules_reverse_activation_witness :
    ((deinit_modules (activate_modules []
        [{ name := "a", requirements := "", depends_on := [],
           prepared := true, activated := false,
           install_ok := true, init_ok := true, deinit_ok := true },
         { name := "b", requirements := "", depends_on := ["a"],
           prepared := true, activated := false,
           install_ok := true, init_ok := true, deinit_ok := false }]).1).map
        Prod.fst =
      ((((activate_modules []
        [{ name := "a", requirements := "", depends_on := [],
           prepared := true, activated := false,
           install_ok := true, init_ok := true, deinit_ok := true },
         { name := "b", requirements := "", depends_on := ["a"],
           prepared := true, activated := false,
           install_ok := true, init_ok := true, deinit_ok := false }]).2.filter
          (fun d => d.activated)).map (fun d => d.name)).reverse)) ∧
    ∀ n ∈ (activate_modules []
        [{ name := "a", requirements := "", depends_on := [],
           prepared := true, activated := false,
           install_ok := true, init_ok := true, deinit_ok := true },
         { name := "b", requirements := "", depends_on := ["a"],
           prepared := true, activated := false,
           install_ok := true, init_ok := true, deinit_ok := false }]).1.map
        Prod.fst,
      n ∈ (deinit_modules (activate_modules []
        [{ name := "a", requirements := "", depends_on := [],
           prepared := true, activated := false,
           install_ok := true, init_ok := true, deinit_ok := true },
         { name := "b", requirements := "", depends_on := ["a"],
           prepared := true, activated := false,
           install_ok := true, init_ok := true, deinit_ok := false }]).1).map
        Prod.fst :=
  deinit_modules_reverse_activation _ (by decide) (by decide)

/-! ### Cache-hash chaining -/

/-- The descriptors that are not skipped by the `skip` setting — the
ones contributing to the cache-hash chain. -/
def notSkipped (skip : List String) (ds : List Descriptor) : List Descriptor :=
  ds.filter (fun d => decide (d.name ∉ skip))

/-- Expected `(name, cache_hash)` pairs starting from given chunks. -/
def chainHashes (H : String → String) : List String → List Descriptor →
    List (String × String)
  | _, [] => []
  | chunks, d :: rest =>
    (d.name, H (strJoin "_" (chunks ++ [H d.requirements]))) ::
      chainHashes H (chunks ++ [H d.requirements]) rest

theorem prepareLoop_spec (H : String → String) (skip : List String) :
    ∀ (ds : List Descriptor) (st : PrepareState),
      (prepareLoop H skip st ds).cache_hash_chunks =
        st.cache_hash_chunks ++
          (notSkipped skip ds).map (fun d => H d.requirements) ∧
      (prepareLoop H skip st ds).hashes =
        st.hashes ++ chainHashes H st.cache_hash_chunks (notSkipped skip ds) := by
  intro ds
  induction ds with
  | nil =>
    intro st
    simp [prepareLoop, notSkipped, chainHashes]
  | cons d rest ih =>
    intro st
    rw [prepareLoop, prepareStep]
    by_cases hskip : d.name ∈ skip
    · rw [if_pos hskip]
      have hns : notSkipped skip (d :: rest) = notSkipped skip rest := by
        simp [notSkipped, List.filter_cons, hskip]
      rw [hns]
      exact ih { st with descriptors := st.descriptors ++ [d] }
    · rw [if_neg hskip]
      have hns : notSkipped skip (d :: rest) = d :: notSkipped skip rest := by
        simp [notSkipped, List.filter_cons, hskip]
      rw [hns]
      by_cases hinst : d.install_ok = true
      · rw [if_pos hinst]
        obtain ⟨hc, hh⟩ := ih
          { cache_hash_chunks := st.cache_hash_chunks ++ [H d.requirements],
            descriptors := st.descriptors ++ [{ d with prepared := true }],
            hashes := st.hashes ++
              [(d.name, H (strJoin "_" (st.cache_hash_chunks ++ [H d.requirements])))] }
        rw [hc, hh]
        constructor
        · simp [chainHashes]
        · rw [chainHashes]
          simp
      · rw [if_neg hinst]
        obtain ⟨hc, hh⟩ := ih
          { cache_hash_chunks := st.cache_hash_chunks ++ [H d.requirements],
            descriptors := st.descriptors ++ [d],
            hashes := st.hashes ++
              [(d.name, H (strJoin "_" (st.cache_hash_chunks ++ [H d.requirements])))] }
        rw [hc, hh]
        constructor
        · simp [chainHashes]
        · rw [chainHashes]
          simp

theorem chainHashes_get (H : String → String) :
    ∀ (l : List Descriptor) (chunks : List String) (k : Nat) (hk : k < l.length),
      (chainHashes H chunks l)[k]? =
        some ((l.get ⟨k, hk⟩).name,
          H (strJoin "_"
            (chunks ++ (l.map (fun d => H d.requirements)).take (k + 1)))) := by
  intro l
  induction l with
  | nil =>
    intro chunks k hk
    cases hk
  | cons d rest ih =>
    intro chunks k hk
    cases k with
    | zero =>
      rw [chainHashes, List.getElem?_cons_zero, List.map_cons,
        List.take_succ_cons, List.take_zero]
      rfl
    | succ k =>
      rw [chainHashes]
      have hk2 : k < rest.length := Nat.lt_of_succ_lt_succ hk
      rw [List.getElem?_cons_succ, ih (chunks ++ [H d.requirements]) k hk2]
      rw [List.map_cons, List.take_succ_cons]
      simp only [List.append_assoc, List.singleton_append]
      rfl

/-- The `cache_hash` computed for the `k`-th non-skipped descriptor of
a session starting with no carried-over chunks. -/
def cacheHashAt (H : String → String) (skip : List String)
    (ds : List Descriptor) (k : Nat) : Option String :=
  ((prepare_modules H skip [] ds).hashes.map Prod.snd)[k]?

/-- The requirements texts of the non-skipped plugins processed up to
and including position `k`. -/
def prepChain (skip : List String) (ds : List Descriptor) (k : Nat) :
    List String :=
  ((notSkipped skip ds).map (fun d => d.requirements)).take (k + 1)

theorem cacheHashAt_eq (H : String → String) (skip : List String)
    (ds : List Descriptor) (k : Nat)
    (hk : k < (notSkipped skip ds).length) :
    cacheHashAt H skip ds k =
      some (H (strJoin "_" ((prepChain skip ds k).map H))) := by
  rw [cacheHashAt, prepare_modules]
  rw [(prepareLoop_spec H skip ds ⟨[], [], []⟩).2]
  simp only [List.nil_append]
  rw [List.getElem?_map, chainHashes_get H (notSkipped skip ds) [] k hk]
  rw [Option.map_some']
  simp only [List.nil_append, prepChain, List.map_take, List.map_map]
  rfl

/-! ### Injectivity of the chain construction -/

theorem strJoin_length_ge {L : Nat} :
    ∀ (x : String) (xs : List String),
      (∀ y ∈ x :: xs, y.length = L) → L ≤ (strJoin "_" (x :: xs)).length := by
  intro x xs h
  cases xs with
  | nil =>
    exact Nat.le_of_eq (h x (List.mem_cons_self _ _)).symm
  | cons y t =>
    have he : strJoin "_" (x :: y :: t) = x ++ "_" ++ strJoin "_" (y :: t) := rfl
    rw [he, String.length_append, String.length_append]
    have hx := h x (List.mem_cons_self _ _)
    omega

theorem strJoin_inj {L : Nat} (hL : 0 < L) :
    ∀ l1 l2 : List String,
      (∀ x ∈ l1, x.length = L) → (∀ x ∈ l2, x.length = L) →
      strJoin "_" l1 = strJoin "_" l2 → l1 = l2 := by
  intro l1
  induction l1 with
  | nil =>
    intro l2 _ h2 h
    cases l2 with
    | nil => rfl
    | cons y t2 =>
      exfalso
      have hlen := strJoin_length_ge y t2 h2
      rw [← h] at hlen
      have : (strJoin "_" ([] : List String)).length = 0 := rfl
      omega
  | cons x t ih =>
    intro l2 h1 h2 h
    cases l2 with
    | nil =>
      exfalso
      have hlen := strJoin_length_ge x t h1
      rw [h] at hlen
      have : (strJoin "_" ([] : List String)).length = 0 := rfl
      omega
    | cons y t2 =>
      have hx : x.length = L := h1 x (List.mem_cons_self _ _)
      have hy : y.length = L := h2 y (List.mem_cons_self _ _)
      cases t with
      | nil =>
        cases t2 with
        | nil =>
          have h2e : x = y := h
          rw [h2e]
        | cons z t3 =>
          exfalso
          have h2e : x = y ++ "_" ++ strJoin "_" (z :: t3) := h
          have hlen := congrArg String.length h2e
          rw [String.length_append, String.length_append] at hlen
          have hz := strJoin_length_ge z t3
            (fun v hv => h2 v (List.mem_cons_of_mem _ hv))
          omega
      | cons w t4 =>
        cases t2 with
        | nil =>
          exfalso
          have h2e : x ++ "_" ++ strJoin "_" (w :: t4) = y := h
          have hlen := congrArg String.length h2e
          rw [String.length_append, String.length_append] at hlen
          have hw := strJoin_length_ge w t4
            (fun v hv => h1 v (List.mem_cons_of_mem _ hv))
          omega
        | cons z t3 =>
          have h2e : x ++ "_" ++ strJoin "_" (w :: t4) =
              y ++ "_" ++ strJoin "_" (z :: t3) := h
          have hd := congrArg String.data h2e
          simp only [String.data_append] at hd
          have hsl : (("_" : String).data).length = 1 := rfl
          have hlen1 : (x.data ++ ("_" : String).data).length =
              (y.data ++ ("_" : String).data).length := by
            rw [List.length_append, List.length_append]
            have hxd : x.data.length = x.length := rfl
            have hyd : y.data.length = y.length := rfl
            omega
          obtain ⟨hxy, hre⟩ := List.append_inj hd hlen1
          have hx2 : x.data = y.data := by
            refine (List.append_inj hxy ?_).1
            have hxd : x.data.length = x.length := rfl
            have hyd : y.data.length = y.length := rfl
            omega
          have hjoin : strJoin "_" (w :: t4) = strJoin "_" (z :: t3) :=
            String.ext hre
          have htails : w :: t4 = z :: t3 :=
            ih (z :: t3) (fun v hv => h1 v (List.mem_cons_of_mem _ hv))
              (fun v hv => h2 v (List.mem_cons_of_mem _ hv)) hjoin
          rw [String.ext hx2, htails]

theorem map_inj_on {H : String → String} :
    ∀ l1 l2 : List String,
      (∀ a ∈ l1, ∀ b ∈ l2, H a = H b → a = b) →
      l1.map H = l2.map H → l1 = l2 := by
  intro l1
  induction l1 with
  | nil =>
    intro l2 _ h
    cases l2 with
    | nil => rfl
    | cons b t2 => cases h
  | cons a t ih =>
    intro l2 hinj h
    cases l2 with
    | nil => cases h
    | cons b t2 =>
      rw [List.map_cons, List.map_cons] at h
      have h1 : H a = H b := (List.cons.injEq _ _ _ _ ▸ h).1
      have h2 : t.map H = t2.map H := (List.cons.injEq _ _ _ _ ▸ h).2
      have hab : a = b :=
        hinj a (List.mem_cons_self _ _) b (List.mem_cons_self _ _) h1
      rw [hab, ih t2 (fun p hp q hq => hinj p (List.mem_cons_of_mem _ hp) q
        (List.mem_cons_of_mem _ hq)) h2]

/-- C9. The `cache_hash` computed for the `k`-th non-skipped plugin is
a deterministic function of the requirements texts of the non-skipped
plugins processed earlier in the session together with its own
(`prepChain`): two runs with identical chains get identical hashes; and
— as long as the hash function `H` (sha256) does not collide on the
finitely many strings involved and produces digests of a fixed positive
length — runs whose chains differ anywhere get different hashes. -/
theorem cache_hash_chain (H : String → String) (skip1 skip2 : List String)
    (ds1 ds2 : List Descriptor) (k : Nat)
    (hk1 : k < (notSkipped skip1 ds1).length)
    (hk2 : k < (notSkipped skip2 ds2).length) :
    ((prepChain skip1 ds1 k = prepChain skip2 ds2 k) →
      cacheHashAt H skip1 ds1 k = cacheHashAt H skip2 ds2 k) ∧
    (∀ L : Nat, 0 < L →
      (∀ s ∈ prepChain skip1 ds1 k ++ prepChain skip2 ds2 k, (H s).length = L) →
      (∀ a ∈ prepChain skip1 ds1 k ++ prepChain skip2 ds2 k ++
          [strJoin "_" ((prepChain skip1 ds1 k).map H),
            strJoin "_" ((prepChain skip2 ds2 k).map H)],
        ∀ b ∈ prepChain skip1 ds1 k ++ prepChain skip2 ds2 k ++
          [strJoin "_" ((prepChain skip1 ds1 k).map H),
            strJoin "_" ((prepChain skip2 ds2 k).map H)],
        H a = H b → a = b) →
      prepChain skip1 ds1 k ≠ prepChain skip2 ds2 k →
      cacheHashAt H skip1 ds1 k ≠ cacheHashAt H skip2 ds2 k) := by
  constructor
  · intro h
    rw [cacheHashAt_eq H skip1 ds1 k hk1, cacheHashAt_eq H skip2 ds2 k hk2, h]
  · intro L hL hlen hinj hne heq
    rw [cacheHashAt_eq H skip1 ds1 k hk1, cacheHashAt_eq H skip2 ds2 k hk2] at heq
    have hHj : H (strJoin "_" ((prepChain skip1 ds1 k).map H)) =
        H (strJoin "_" ((prepChain skip2 ds2 k).map H)) :=
      Option.some.injEq _ _ ▸ heq
    have hj : strJoin "_" ((prepChain skip1 ds1 k).map H) =
        strJoin "_" ((prepChain skip2 ds2 k).map H) :=
      hinj _ (by simp) _ (by simp) hHj
    have hmapeq : (prepChain skip1 ds1 k).map H = (prepChain skip2 ds2 k).map H :=
      strJoin_inj hL _ _
        (fun x hx => by
          obtain ⟨s, hs, rfl⟩ := List.mem_map.1 hx
          exact hlen s (List.mem_append.2 (Or.inl hs)))
        (fun x hx => by
          obtain ⟨s, hs, rfl⟩ := List.mem_map.1 hx
          exact hlen s (List.mem_append.2 (Or.inr hs)))
        hj
    exact hne (map_inj_on _ _
      (fun a ha b hb hab => hinj a (by simp [ha]) b (by simp [hb]) hab) hmapeq)

/-- A concrete stand-in hash used by the C9 witness (injective on the
strings involved, digests of length 2). -/
def hashStub (s : String) : String :=
  if s = "ra" then "AA"
  else if s = "rb" then "BB"
  else if s = "rc" then "CC"
  else if s = "AA_CC" then "DD"
  else if s = "BB_CC" then "EE"
  else "ZZ"

/-- C9 witness: two runs over plugins with requirement chains
`[ra, rc]` compute the same second cache hash even though the plugin
names differ, while changing the first plugin's requirements to `rb`
changes the second plugin's hash. -/
theorem cache_hash_chain_witness :
    (cacheHashAt hashStub []
        [{ name := "p", requirements := "ra", depends_on := [], prepared := false,
           activated := false, install_ok := true, init_ok := true, deinit_ok := true },
         { name := "q", requirements := "rc", depends_on := [], prepared := false,
           activated := false, install_ok := true, init_ok := true, deinit_ok := true }] 1 =
      cacheHashAt hashStub []
        [{ name := "x", requirements := "ra", depends_on := [], prepared := false,
           activated := false, install_ok := false, init_ok := true, deinit_ok := true },
         { name := "y", requirements := "rc", depends_on := [], prepared := false,
           activated := false, install_ok := true, init_ok := true, deinit_ok := true }] 1) ∧
    (cacheHashAt hashStub []
        [{ name := "p", requirements := "ra", depends_on := [], prepared := false,
           activated := false, install_ok := true, init_ok := true, deinit_ok := true },
         { name := "q", requirements := "rc", depends_on := [], prepared := false,
           activated := false, install_ok := true, init_ok := true, deinit_ok := true }] 1 ≠
      cacheHashAt hashStub []
        [{ name := "p", requirements := "rb", depends_on := [], prepared := false,
           activated := false, install_ok := true, init_ok := true, deinit_ok := true },
         { name := "q", requirements := "rc", depends_on := [], prepared := false,
           activated := false, install_ok := true, init_ok := true, deinit_ok := true }] 1) :=
  ⟨(cache_hash_chain hashStub [] [] _ _ 1 (by decide) (by decide)).1 (by decide),
    (cache_hash_chain hashStub [] [] _ _ 1 (by decide) (by decide)).2 2 (by decide)
      (by decide) (by decide) (by decide)⟩

end Manager

namespace Exposure

/-! ### Exposure registry handlers (pylon/core/tools/exposure.py) -/

/-- `on_pylon_exposed` (exposure.py lines 215-226): ignore this node's
own announcement, otherwise store `url_prefix -> exposure_id` in the
registry (a python dict, insertion-ordered). -/
def on_pylon_exposed (selfId : String) (registry : List (String × String))
    (urlPfx exposure_id : String) : List (String × String) :=
  if exposure_id = selfId then registry
  else dictInsert registry urlPfx exposure_id

/-- Python `dict.pop(key, None)`. -/
def dictPop (l : List (String × α)) (k : String) : List (String × α) :=
  l.filter (fun it => decide (it.1 ≠ k))

/-- `on_pylon_unexposed` (exposure.py lines 229-243): collect the
prefixes registered to `exposure_id`, then pop them one by one (from
the end of the collected list, as `list.pop()` does). -/
def on_pylon_unexposed (registry : List (String × String))
    (exposure_id : String) : List (String × String) :=
  ((registry.filter (fun it => it.2 == exposure_id)).map Prod.fst).foldr
    (fun p reg => dictPop reg p) registry

theorem foldr_dictPop (drops : List String) (l : List (String × α)) :
    drops.foldr (fun p reg => dictPop reg p) l =
      l.filter (fun it => decide (it.1 ∉ drops)) := by
  induction drops with
  | nil => simp
  | cons p rest ih =>
    rw [List.foldr_cons, ih, dictPop, List.filter_filter]
    refine List.filter_congr fun a _ => ?_
    by_cases h1 : a.1 = p <;> by_cases h2 : a.1 ∈ rest <;> simp [h1, h2]

/-- Net effect of `on_pylon_unexposed` on a registry with unique
prefixes: all entries pointing at `exposure_id` are removed. -/
theorem on_pylon_unexposed_eq_filter {registry : List (String × String)}
    (hnd : (registry.map Prod.fst).Nodup) (exposure_id : String) :
    on_pylon_unexposed registry exposure_id =
      registry.filter (fun it => decide (it.2 ≠ exposure_id)) := by
  rw [on_pylon_unexposed, foldr_dictPop]
  refine List.filter_congr fun a ha => ?_
  by_cases hv : a.2 = exposure_id
  · have hmem : a.1 ∈ (registry.filter
        (fun it => it.2 == exposure_id)).map Prod.fst := by
      exact List.mem_map_of_mem Prod.fst
        (List.mem_filter.2 ⟨ha, by simp [hv]⟩)
    simp [hmem, hv]
  · have hnmem : a.1 ∉ (registry.filter
        (fun it => it.2 == exposure_id)).map Prod.fst := by
      intro hmem
      obtain ⟨b, hb, hfst⟩ := List.mem_map.1 hmem
      have hbmem := List.mem_filter.1 hb
      have hab : b = a := eq_of_mem_nodup_keys hnd hbmem.1 ha hfst
      rw [hab] at hbmem
      exact hv (by simpa using hbmem.2)
    simp [hnmem, hv]

/-- Membership after a dict insertion. -/
theorem mem_dictInsert_val {l : List (String × α)} {k p : String} {v i : α}
    (h : (p, i) ∈ dictInsert l k v) : i = v ∨ (p, i) ∈ l := by
  rw [dictInsert] at h
  by_cases hs : (l.lookup k).isSome = true
  · rw [if_pos hs] at h
    obtain ⟨it, hit, he⟩ := List.mem_map.1 h
    by_cases hik : it.1 = k
    · rw [if_pos hik] at he
      left
      cases he
      rfl
    · rw [if_neg hik] at he
      right
      rw [← he]
      exact hit
  · rw [if_neg hs] at h
    rcases List.mem_append.1 h with h | h
    · exact Or.inr h
    · left
      have : (p, i) = (k, v) := by simpa using h
      cases this
      rfl

/-! ### Request forwarding (`on_request`, exposure.py lines 246-300) -/

/-- Python `s.startswith(pre)`: character-sequence prefix test. -/
def startsWithPy (pre s : String) : Bool := pre.data.isPrefixOf s.data

/-- Result of `on_request` as far as target selection goes: either
`flask.abort(404)` (which raises, so no RPC call is made), or an RPC
`wsgi_call` forwarded to the selected exposure id. -/
inductive RequestAction where
  | abort404
  | forward (exposure_id : String)
deriving DecidableEq, Repr

/-- `sorted(registry.items(), key=len(prefix), reverse=True)`: sort the
registry items by descending prefix length (ties cannot matter: two
distinct same-length prefixes never both match one URL). -/
def byLenDesc (a b : String × String) : Prop := b.1.length ≤ a.1.length

instance : DecidableRel byLenDesc := fun a b => Nat.decLe b.1.length a.1.length

instance : IsTotal (String × String) byLenDesc :=
  ⟨fun a b => (Nat.le_total b.1.length a.1.length).elim Or.inl Or.inr⟩

instance : IsTrans (String × String) byLenDesc :=
  ⟨fun _ _ _ hab hbc => Nat.le_trans hbc hab⟩

/-- The target-selection logic of `on_request`: first registered prefix
of the URL in the length-descending sort order; `abort404` when none
matches (python `str.startswith` is the string-prefix test). -/
def on_request (registry : List (String × String)) (source_uri : String) :
    RequestAction :=
  match (List.insertionSort byLenDesc registry).find?
      (fun it => startsWithPy it.1 source_uri) with
  | some it => .forward it.2
  | none => .abort404

theorem string_prefix_eq_of_length {p q u : String}
    (hp : startsWithPy p u = true) (hq : startsWithPy q u = true)
    (h : p.length = q.length) : p = q := by
  have hp2 : p.data <+: u.data := List.isPrefixOf_iff_prefix.1 hp
  have hq2 : q.data <+: u.data := List.isPrefixOf_iff_prefix.1 hq
  rw [List.prefix_iff_eq_take] at hp2 hq2
  apply String.ext
  rw [hp2, hq2]
  have hd : p.data.length = q.data.length := h
  rw [hd]

/-- In a `byLenDesc`-sorted list, the first match of `find?` has
maximal key length among all matching elements. -/
theorem find?_sorted_maximal {l : List (String × String)} {it : String × String}
    {pred : String × String → Bool}
    (hs : List.Sorted byLenDesc l) (h : l.find? pred = some it) :
    ∀ x ∈ l, pred x = true → x.1.length ≤ it.1.length := by
  induction l with
  | nil => cases h
  | cons a t ih =>
    rw [List.find?_cons] at h
    cases hp : pred a with
    | true =>
      rw [hp] at h
      cases h
      intro x hx _
      rcases List.mem_cons.1 hx with rfl | hx
      · exact Nat.le_refl _
      · exact (List.sorted_cons.1 hs).1 x hx
    | false =>
      rw [hp] at h
      intro x hx hpx
      rcases List.mem_cons.1 hx with rfl | hx
      · rw [hp] at hpx
        cases hpx
      · exact ih (List.sorted_cons.1 hs).2 h x hx hpx

/-- C6. `on_request` selects the exposure id registered under the
longest registered prefix of the URL (which is unique); when no
registered prefix matches it aborts with 404, making no RPC call. -/
theorem on_request_longest_match (registry : List (String × String))
    (u : String) (hnd : (registry.map Prod.fst).Nodup) :
    ((∀ p i, (p, i) ∈ registry → startsWithPy p u = false) →
      on_request registry u = .abort404) ∧
    (∀ i, on_request registry u = .forward i →
      ∃ p, (p, i) ∈ registry ∧ startsWithPy p u = true ∧
        (∀ q j, (q, j) ∈ registry → startsWithPy q u = true →
          q.length ≤ p.length) ∧
        (∀ q j, (q, j) ∈ registry → startsWithPy q u = true →
          q.length = p.length → q = p ∧ j = i)) ∧
    ((∃ p i, (p, i) ∈ registry ∧ startsWithPy p u = true) →
      ∃ i, on_request registry u = .forward i) := by
  have hperm : (List.insertionSort byLenDesc registry).Perm registry :=
    List.perm_insertionSort byLenDesc registry
  have hsort : List.Sorted byLenDesc (List.insertionSort byLenDesc registry) :=
    List.sorted_insertionSort byLenDesc registry
  refine ⟨?_, ?_, ?_⟩
  · intro h
    rw [on_request]
    have hnone : (List.insertionSort byLenDesc registry).find?
        (fun it => startsWithPy it.1 u) = none := by
      rw [List.find?_eq_none]
      intro x hx
      have hxr : x ∈ registry := hperm.mem_iff.1 hx
      simp [h x.1 x.2 (by simpa using hxr)]
    rw [hnone]
  · intro i h
    rw [on_request] at h
    cases hf : (List.insertionSort byLenDesc registry).find?
        (fun it => startsWithPy it.1 u) with
    | none => rw [hf] at h; cases h
    | some it =>
      rw [hf] at h
      cases h
      have hmem : it ∈ registry := hperm.mem_iff.1 (List.mem_of_find?_eq_some hf)
      have hpref0 := List.find?_some hf
      have hpref : startsWithPy it.1 u = true := hpref0
      refine ⟨it.1, by simpa using hmem, hpref, ?_, ?_⟩
      · intro q j hq hqp
        exact find?_sorted_maximal hsort hf (q, j) (hperm.mem_iff.2 hq) hqp
      · intro q j hq hqp hlen
        have hqe : q = it.1 := string_prefix_eq_of_length hqp hpref hlen
        have : (q, j) = (it.1, it.2) :=
          eq_of_mem_nodup_keys hnd hq (by simpa using hmem) hqe
        exact ⟨hqe, (Prod.mk.injEq .. ▸ this).2⟩
  · rintro ⟨p, i, hmem, hpref⟩
    rw [on_request]
    cases hf : (List.insertionSort byLenDesc registry).find?
        (fun it => startsWithPy it.1 u) with
    | none =>
      exfalso
      rw [List.find?_eq_none] at hf
      exact absurd hpref (by simpa using hf (p, i) (hperm.mem_iff.2 hmem))
    | some it => exact ⟨it.2, rfl⟩

/-- C6 witness: with `/foo -> X` and `/foo/bar -> Y` registered, the
URL `/foo/bar/q` is forwarded to `Y`, whose prefix `/foo/bar` is the
longest registered match; the unrelated URL `/zzz` aborts with 404. -/
theorem on_request_longest_match_witness :
    (∃ p, (p, "Y") ∈ [("/foo", "X"), ("/foo/bar", "Y")] ∧
      startsWithPy p "/foo/bar/q" = true ∧
      (∀ q j, (q, j) ∈ [("/foo", "X"), ("/foo/bar", "Y")] →
        startsWithPy q "/foo/bar/q" = true → q.length ≤ p.length) ∧
      (∀ q j, (q, j) ∈ [("/foo", "X"), ("/foo/bar", "Y")] →
        startsWithPy q "/foo/bar/q" = true → q.length = p.length →
        q = p ∧ j = "Y")) ∧
    on_request [("/foo", "X"), ("/foo/bar", "Y")] "/zzz" = .abort404 :=
  ⟨(on_request_longest_match [("/foo", "X"), ("/foo/bar", "Y")] "/foo/bar/q"
      (by decide)).2.1 "Y" rfl,
    (on_request_longest_match [("/foo", "X"), ("/foo/bar", "Y")] "/zzz"
      (by decide)).1 (by
        intro p i hpi
        simp only [List.mem_cons, List.mem_singleton, Prod.mk.injEq,
          List.not_mem_nil, or_false] at hpi
        rcases hpi with ⟨rfl, rfl⟩ | ⟨rfl, rfl⟩ <;> decide)⟩

/-! ### Liveness checker (`LivenessChecker.run`, exposure.py 450-517) -/

structure PeerState where
  last_ping : Nat
  missed_pings : Nat
deriving DecidableEq, Repr

/-- The exposure-side state a checker iteration touches: the prefix
registry, the checker's `self.state` (peer id -> PeerState), and the
trace of `pylon_unexposed` events emitted on the bus (the local
eviction path never emits, which this field witnesses). -/
structure ExposureState where
  registry : List (String × String)
  pinger : List (String × PeerState)
  emitted : List String
deriving DecidableEq, Repr

structure LivenessConfig where
  ping_interval : Nat
  max_missed_pings : Nat
deriving DecidableEq, Repr

/-- State synchronisation at the top of the loop (exposure.py 464-478):
add entries for newly exposed ids, drop entries for ids no longer in
the registry. Python computes `added_ids`/`removed_ids` via sets whose
iteration order is arbitrary; the model fixes first-occurrence order,
which only affects dict ordering, not membership. -/
def syncPinger (registry : List (String × String))
    (pinger : List (String × PeerState)) (now : Nat) :
    List (String × PeerState) :=
  let exposed := registry.map Prod.snd
  let stateIds := pinger.map Prod.fst
  let added := exposed.dedup.filter (fun i => decide (i ∉ stateIds))
  (pinger ++ added.map (fun i =>
      ((i, { last_ping := now, missed_pings := 0 }) : String × PeerState))).filter
    (fun it => decide (it.1 ∈ exposed ∨ it.1 ∉ stateIds))

/-- `to_check` (exposure.py 480-486): ids whose last ping is at least
`ping_interval` old, in state order. -/
def dueIds (cfg : LivenessConfig) (now : Nat)
    (pinger : List (String × PeerState)) : List String :=
  (pinger.filter (fun it =>
    decide (cfg.ping_interval ≤ now - it.2.last_ping))).map Prod.fst

/-- The success-path update `self.state[id] = {last_ping: now2,
missed: 0}` (exposure.py 514-515). -/
def pingerReset (p : List (String × PeerState)) (reg_id : String)
    (now2 : Nat) : List (String × PeerState) :=
  dictUpdate p reg_id (fun _ => { last_ping := now2, missed_pings := 0 })

/-- The failure-path update `last_ping = now2; missed_pings += 1`
(exposure.py 503-504). -/
def pingerFail (p : List (String × PeerState)) (reg_id : String)
    (now2 : Nat) : List (String × PeerState) :=
  dictUpdate p reg_id
    (fun s => { last_ping := now2, missed_pings := s.missed_pings + 1 })

/-- `self.state[reg_id]["missed_pings"]`. -/
def missedOf (p : List (String × PeerState)) (reg_id : String) : Nat :=
  match p.lookup reg_id with
  | some s => s.missed_pings
  | none => 0

/-- One iteration of the checker loop (exposure.py 461-515). `now` is
the `time.time()` read used for the due check, `now2` the one used when
updating `last_ping`; `ping` tells whether the RPC ping of an id
returns `True` in time (`false` covers both a timeout and an invalid
result). On the failure path the counter is incremented and, at
`max_missed_pings`, the peer is evicted locally via
`on_pylon_unexposed` — nothing is emitted on the bus. -/
def liveness_tick (cfg : LivenessConfig) (now now2 : Nat)
    (ping : String → Bool) (st : ExposureState) :
    ExposureState × Option String :=
  match dueIds cfg now (syncPinger st.registry st.pinger now) with
  | [] => ({ st with pinger := syncPinger st.registry st.pinger now }, none)
  | reg_id :: _ =>
    if ping reg_id then
      ({ st with pinger :=
          pingerReset (syncPinger st.registry st.pinger now) reg_id now2 },
        some reg_id)
    else
      if cfg.max_missed_pings ≤
          missedOf (pingerFail (syncPinger st.registry st.pinger now)
            reg_id now2) reg_id then
        ({ registry := on_pylon_unexposed st.registry reg_id,
           pinger :=
             pingerFail (syncPinger st.registry st.pinger now) reg_id now2,
           emitted := st.emitted }, some reg_id)
      else
        ({ st with pinger :=
            pingerFail (syncPinger st.registry st.pinger now) reg_id now2 },
          some reg_id)

/-- C7. In a checker iteration whose due list starts with `reg_id`
(state entry `ps`): a failed ping increments the peer's missed-pings
counter (resetting `last_ping`), and when the incremented counter
reaches `max_missed_pings` all of the peer's registry entries are
removed while nothing is emitted on the bus; a successful ping resets
the counter to 0; no iteration ever emits; and local eviction via
`on_pylon_unexposed` is idempotent. -/
theorem liveness_tick_spec (cfg : LivenessConfig) (now now2 : Nat)
    (ping : String → Bool) (st : ExposureState) (reg_id : String)
    (rest : List String) (ps : PeerState)
    (hnd : ((syncPinger st.registry st.pinger now).map Prod.fst).Nodup)
    (hndr : (st.registry.map Prod.fst).Nodup)
    (hdue : dueIds cfg now (syncPinger st.registry st.pinger now) = reg_id :: rest)
    (hmem : (reg_id, ps) ∈ syncPinger st.registry st.pinger now) :
    (liveness_tick cfg now now2 ping st).2 = some reg_id ∧
    (ping reg_id = false →
      (liveness_tick cfg now now2 ping st).1.pinger.lookup reg_id =
        some ⟨now2, ps.missed_pings + 1⟩ ∧
      (cfg.max_missed_pings ≤ ps.missed_pings + 1 →
        (liveness_tick cfg now now2 ping st).1.registry =
          st.registry.filter (fun it => decide (it.2 ≠ reg_id))) ∧
      (ps.missed_pings + 1 < cfg.max_missed_pings →
        (liveness_tick cfg now now2 ping st).1.registry = st.registry)) ∧
    (ping reg_id = true →
      (liveness_tick cfg now now2 ping st).1.pinger.lookup reg_id =
        some ⟨now2, 0⟩ ∧
      (liveness_tick cfg now now2 ping st).1.registry = st.registry) ∧
    (liveness_tick cfg now now2 ping st).1.emitted = st.emitted ∧
    on_pylon_unexposed (on_pylon_unexposed st.registry reg_id) reg_id =
      on_pylon_unexposed st.registry reg_id := by
  have hlk : (syncPinger st.registry st.pinger now).lookup reg_id = some ps :=
    lookup_of_mem_nodup hnd hmem
  have hlk3 : (pingerFail (syncPinger st.registry st.pinger now)
      reg_id now2).lookup reg_id =
      some { last_ping := now2, missed_pings := ps.missed_pings + 1 } := by
    rw [pingerFail, lookup_dictUpdate, hlk]
    rfl
  have hmiss : missedOf (pingerFail (syncPinger st.registry st.pinger now)
      reg_id now2) reg_id = ps.missed_pings + 1 := by
    rw [missedOf, hlk3]
  have hidem : on_pylon_unexposed (on_pylon_unexposed st.registry reg_id) reg_id =
      on_pylon_unexposed st.registry reg_id := by
    have hnd2 : ((st.registry.filter
        (fun it => decide (it.2 ≠ reg_id))).map Prod.fst).Nodup := by
      refine List.Nodup.sublist ?_ hndr
      exact List.Sublist.map Prod.fst (List.filter_sublist _)
    rw [on_pylon_unexposed_eq_filter hndr, on_pylon_unexposed_eq_filter hnd2,
      List.filter_filter]
    refine (List.filter_congr fun a _ => ?_).symm
    by_cases hv : a.2 = reg_id <;> simp [hv]
  simp only [liveness_tick, hdue]
  by_cases hp : ping reg_id = true
  · rw [if_pos hp]
    refine ⟨rfl, fun hc => ?_, fun _ => ⟨?_, rfl⟩, rfl, hidem⟩
    · rw [hp] at hc
      cases hc
    · rw [pingerReset, lookup_dictUpdate, hlk]
      rfl
  · rw [if_neg hp]
    rw [hmiss]
    by_cases hmax : cfg.max_missed_pings ≤ ps.missed_pings + 1
    · rw [if_pos hmax]
      refine ⟨rfl, fun _ => ⟨hlk3, fun _ => ?_, fun hlt => ?_⟩,
        fun hc => absurd hc hp, rfl, hidem⟩
      · exact on_pylon_unexposed_eq_filter hndr reg_id
      · omega
    · rw [if_neg hmax]
      refine ⟨rfl, fun _ => ⟨hlk3, fun hge => ?_, fun _ => rfl⟩,
        fun hc => absurd hc hp, rfl, hidem⟩
      omega

/-- C7 witness: peer `X` (registered under prefix `/p`) with 2 missed
pings is due at `now = 15`; its ping fails, the counter reaches the
default maximum 3, and `X` vanishes from the registry with nothing
emitted; eviction is idempotent. -/
theorem liveness_tick_spec_witness :
    (liveness_tick ⟨15, 3⟩ 15 16 (fun _ => false)
        ⟨[("/p", "X")], [("X", ⟨0, 2⟩)], []⟩).2 = some "X" ∧
    ((fun _ => false : String → Bool) "X" = false →
      (liveness_tick ⟨15, 3⟩ 15 16 (fun _ => false)
          ⟨[("/p", "X")], [("X", ⟨0, 2⟩)], []⟩).1.pinger.lookup "X" =
        some ⟨16, 3⟩ ∧
      ((3 : Nat) ≤ 2 + 1 →
        (liveness_tick ⟨15, 3⟩ 15 16 (fun _ => false)
            ⟨[("/p", "X")], [("X", ⟨0, 2⟩)], []⟩).1.registry =
          [("/p", "X")].filter (fun it => decide (it.2 ≠ "X"))) ∧
      ((2 : Nat) + 1 < 3 →
        (liveness_tick ⟨15, 3⟩ 15 16 (fun _ => false)
            ⟨[("/p", "X")], [("X", ⟨0, 2⟩)], []⟩).1.registry = [("/p", "X")])) ∧
    ((fun _ => false : String → Bool) "X" = true →
      (liveness_tick ⟨15, 3⟩ 15 16 (fun _ => false)
          ⟨[("/p", "X")], [("X", ⟨0, 2⟩)], []⟩).1.pinger.lookup "X" =
        some ⟨16, 0⟩ ∧
      (liveness_tick ⟨15, 3⟩ 15 16 (fun _ => false)
          ⟨[("/p", "X")], [("X", ⟨0, 2⟩)], []⟩).1.registry = [("/p", "X")]) ∧
    (liveness_tick ⟨15, 3⟩ 15 16 (fun _ => false)
        ⟨[("/p", "X")], [("X", ⟨0, 2⟩)], []⟩).1.emitted = [] ∧
    on_pylon_unexposed (on_pylon_unexposed [("/p", "X")] "X") "X" =
      on_pylon_unexposed [("/p", "X")] "X" :=
  liveness_tick_spec ⟨15, 3⟩ 15 16 (fun _ => false)
    ⟨[("/p", "X")], [("X", ⟨0, 2⟩)], []⟩ "X" [] ⟨0, 2⟩
    (by decide) (by decide) (by decide) (by decide)

/-! ### No self-forwarding (`on_pylon_exposed` self check) -/

/-- The registry after a checker iteration is either unchanged or the
result of a local `on_pylon_unexposed`. -/
theorem liveness_tick_registry_cases (cfg : LivenessConfig) (now now2 : Nat)
    (ping : String → Bool) (st : ExposureState) :
    (liveness_tick cfg now now2 ping st).1.registry = st.registry ∨
      ∃ i, (liveness_tick cfg now now2 ping st).1.registry =
        on_pylon_unexposed st.registry i := by
  cases hd : dueIds cfg now (syncPinger st.registry st.pinger now) with
  | nil =>
    simp [liveness_tick, hd]
  | cons reg_id rest =>
    simp only [liveness_tick, hd]
    by_cases hp : ping reg_id = true
    · rw [if_pos hp]
      exact Or.inl rfl
    · rw [if_neg hp]
      by_cases hmax : cfg.max_missed_pings ≤
          missedOf (pingerFail (syncPinger st.registry st.pinger now)
            reg_id now2) reg_id
      · rw [if_pos hmax]
        exact Or.inr ⟨reg_id, rfl⟩
      · rw [if_neg hmax]
        exact Or.inl rfl

/-- Registry states reachable on a handling node with exposure id
`selfId`: the registry starts empty (`expose`, exposure.py line 56) and
is only ever modified by the `pylon_exposed` / `pylon_unexposed`
handlers and by liveness-checker iterations (whose eviction path calls
the `pylon_unexposed` handler locally). -/
inductive RegistryReachable (selfId : String) :
    List (String × String) → Prop where
  | init : RegistryReachable selfId []
  | exposed (reg : List (String × String)) ( urlPfx exposure_id : String) :
      RegistryReachable selfId reg →
      RegistryReachable selfId (on_pylon_exposed selfId reg urlPfx exposure_id)
  | unexposed (reg : List (String × String)) (exposure_id : String) :
      RegistryReachable selfId reg →
      RegistryReachable selfId (on_pylon_unexposed reg exposure_id)
  | tick (reg : List (String × String)) (cfg : LivenessConfig)
      (now now2 : Nat) (ping : String → Bool)
      (pinger : List (String × PeerState)) (emitted : List String) :
      RegistryReachable selfId reg →
      RegistryReachable selfId
        (liveness_tick cfg now now2 ping ⟨reg, pinger, emitted⟩).1.registry

/-- C10. In every reachable registry state, no URL prefix maps to this
node's own exposure id: `on_pylon_exposed` ignores the node's own
announcements (its only insertions are foreign ids), and every other
operation only removes entries. -/
theorem registry_never_self (selfId : String) (reg : List (String × String))
    (h : RegistryReachable selfId reg) :
    ∀ p i, (p, i) ∈ reg → i ≠ selfId := by
  induction h with
  | init =>
    intro p i hmem
    cases hmem
  | exposed reg0 urlPfx exposure_id _ ih =>
    intro p i hmem
    rw [on_pylon_exposed] at hmem
    by_cases hself : exposure_id = selfId
    · rw [if_pos hself] at hmem
      exact ih p i hmem
    · rw [if_neg hself] at hmem
      rcases mem_dictInsert_val hmem with rfl | hmem
      · exact hself
      · exact ih p i hmem
  | unexposed reg0 exposure_id _ ih =>
    intro p i hmem
    rw [on_pylon_unexposed, foldr_dictPop] at hmem
    exact ih p i (List.mem_of_mem_filter hmem)
  | tick reg0 cfg now now2 ping pinger emitted _ ih =>
    intro p i hmem
    rcases liveness_tick_registry_cases cfg now now2 ping
        ⟨reg0, pinger, emitted⟩ with hsame | ⟨j, hdrop⟩
    · rw [hsame] at hmem
      exact ih p i hmem
    · rw [hdrop, on_pylon_unexposed, foldr_dictPop] at hmem
      exact ih p i (List.mem_of_mem_filter hmem)

/-- C10 witness: after handling a foreign announcement on the empty
registry, the inserted entry is present and its id differs from the
node's own id. -/
theorem registry_never_self_witness :
    ("/svc", "pylon_other") ∈
      on_pylon_exposed "pylon_me" [] "/svc" "pylon_other" ∧
    ("pylon_other" : String) ≠ "pylon_me" :=
  ⟨by decide,
    registry_never_self "pylon_me"
      (on_pylon_exposed "pylon_me" [] "/svc" "pylon_other")
      (RegistryReachable.exposed [] "/svc" "pylon_other" RegistryReachable.init)
      "/svc" "pylon_other" (by decide)⟩

end Exposure

namespace Slot

/-! ### Slot manager (`SlotManager.run_slot`, pylon/core/tools/slot.py) -/

/-- Outcome of one RPC-dispatched slot callback: the call raises, or
returns a python value that is either `None` or a string. -/
inductive CallbackOutcome where
  | raises
  | returns (value : Option String)

/-- The `for callback in self.callbacks[slot]` loop of `run_slot`
(slot.py lines 82-89), accumulating `result`: a raising callback is
logged and skipped; a `None` result is dropped by the
`is not None` check; any other result — the empty string included — is
appended. -/
def runSlotLoop (rpc : String → CallbackOutcome) :
    List String → List String → List String
  | [], result => result
  | cb :: rest, result =>
    match rpc cb with
    | .raises => runSlotLoop rpc rest result
    | .returns none => runSlotLoop rpc rest result
    | .returns (some v) => runSlotLoop rpc rest (result ++ [v])

/-- `run_slot` (slot.py lines 77-90): empty string when the slot has no
callback list, else `"\n".join(result)`. -/
def run_slot (rpc : String → CallbackOutcome)
    (callbacks : List (String × List String)) (slot : String) : String :=
  match callbacks.lookup slot with
  | none => ""
  | some cbs => Manager.strJoin "\n" (runSlotLoop rpc cbs [])

/-- What the claim's words describe (for comparison with `run_slot`):
the newline-join of the NON-EMPTY successful callback results. -/
def run_slot_claimed (rpc : String → CallbackOutcome)
    (callbacks : List (String × List String)) (slot : String) : String :=
  match callbacks.lookup slot with
  | none => ""
  | some cbs =>
    Manager.strJoin "\n" ((cbs.filterMap (fun cb =>
      match rpc cb with
      | .returns (some v) => some v
      | _ => none)).filter (fun v => decide (v ≠ "")))

/-- A concrete callback table for the counterexample: `cb1` returns
`"a"`, everything else returns the empty string (not `None`). -/
def slotStubRpc (cb : String) : CallbackOutcome :=
  if cb = "cb1" then .returns (some "a") else .returns (some "")

/-- C8 counterexample to the claim as stated: a callback returning the
empty string is kept by the `is not None` check, so `run_slot` yields
`"a\n"`, not the newline-join of the non-empty results (`"a"`). -/
theorem run_slot_counterexample :
    run_slot slotStubRpc [("s", ["cb1", "cb2"])] "s" = "a\n" ∧
    run_slot_claimed slotStubRpc [("s", ["cb1", "cb2"])] "s" = "a" ∧
    run_slot slotStubRpc [("s", ["cb1", "cb2"])] "s" ≠
      run_slot_claimed slotStubRpc [("s", ["cb1", "cb2"])] "s" :=
  ⟨rfl, rfl, by decide⟩

theorem runSlotLoop_eq (rpc : String → CallbackOutcome) :
    ∀ (cbs result : List String),
      runSlotLoop rpc cbs result =
        result ++ cbs.filterMap (fun cb =>
          match rpc cb with
          | .returns (some v) => some v
          | _ => none) := by
  intro cbs
  induction cbs with
  | nil =>
    intro result
    simp [runSlotLoop]
  | cons cb rest ih =>
    intro result
    rw [runSlotLoop]
    cases hr : rpc cb with
    | raises => simp [hr, List.filterMap_cons, ih]
    | returns v =>
      cases v with
      | none => simp [hr, List.filterMap_cons, ih]
      | some s => simp [hr, List.filterMap_cons, ih]

/-- C8 (amended). `run_slot` returns the newline-join of the non-None
callback results — the empty string included — in registration order:
no successful result is dropped, a raising callback contributes nothing
but does not disturb the remaining callbacks, and a slot with no
callback list yields the empty string. -/
theorem run_slot_amended (rpc : String → CallbackOutcome)
    (callbacks : List (String × List String)) (slot : String) :
    (callbacks.lookup slot = none → run_slot rpc callbacks slot = "") ∧
    (∀ cbs, callbacks.lookup slot = some cbs →
      run_slot rpc callbacks slot =
        Manager.strJoin "\n" (cbs.filterMap (fun cb =>
          match rpc cb with
          | .returns (some v) => some v
          | _ => none))) := by
  constructor
  · intro h
    rw [run_slot, h]
  · intro cbs h
    simp only [run_slot, h]
    rw [runSlotLoop_eq, List.nil_append]

/-- C8 witness: a missing slot yields `""`; for slot `s` with callbacks
`[cb1, cbRaise, cbNone, cb2]` (where `cbRaise` raises and `cbNone`
returns `None`) the result is the join of the two surviving results. -/
theorem run_slot_amended_witness :
    run_slot (fun cb =>
        if cb = "cb1" then .returns (some "a")
        else if cb = "cbRaise" then .raises
        else if cb = "cbNone" then .returns none
        else .returns (some "b"))
      [("s", ["cb1", "cbRaise", "cbNone", "cb2"])] "zzz" = "" ∧
    run_slot (fun cb =>
        if cb = "cb1" then .returns (some "a")
        else if cb = "cbRaise" then .raises
        else if cb = "cbNone" then .returns none
        else .returns (some "b"))
      [("s", ["cb1", "cbRaise", "cbNone", "cb2"])] "s" =
      Manager.strJoin "\n" (["cb1", "cbRaise", "cbNone", "cb2"].filterMap
        (fun cb =>
          match (fun cb =>
            if cb = "cb1" then CallbackOutcome.returns (some "a")
            else if cb = "cbRaise" then .raises
            else if cb = "cbNone" then .returns none
            else .returns (some "b")) cb with
          | .returns (some v) => some v
          | _ => none)) :=
  ⟨(run_slot_amended _ [("s", ["cb1", "cbRaise", "cbNone", "cb2"])] "zzz").1 rfl,
    (run_slot_amended _ [("s", ["cb1", "cbRaise", "cbNone", "cb2"])] "s").2
      ["cb1", "cbRaise", "cbNone", "cb2"] rfl⟩

end Slot

end Pylon
